import Mathlib

/-!
Verification of the `futures-dagtask` library (src/src/lib.rs): a
dependency-aware task scheduler.  Tasks are submitted into a directed acyclic
graph together with the identifiers of the tasks they depend on; the execution
stream dispatches a task once all of its still-present dependencies have
completed, and yields `(identity, result)` pairs.

The shallow embedding below translates the Rust source.  Tasks, task values
and task errors are opaque type parameters `T`, `V`, `E`; node identifiers are
natural numbers minted by a counter (mirroring the `Index<I>` counter of the
graph module).  The nondeterminism of the runtime (lock contention on the
`BiLock`, which in-flight future of the `FuturesUnordered` completes and with
what result, cancellation) is supplied explicitly by an environment value at
each step.
-/

namespace DagTask

/-- `State<T>` of src/src/lib.rs lines 20-26: the per-node dependency state
machine: `Pending { count, task }` or the `Running` sentinel. -/
inductive State (T : Type) where
  | pending (count : Nat) (task : T)
  | running
deriving DecidableEq, Repr

/-- Modelled from the spec: the node record of the Indexed Graph
(src/graph.rs, absent from src/).  Each node holds its payload and, per
recorded edge, one entry in `children` naming the edge's target (the spec's
`add_edge(parent_id, child_id)` records an edge under the parent; the
traversal `walk` used to notify a completed node's dependents visits exactly
the recorded edges of that node). -/
structure NodeEntry (T : Type) where
  st : State T
  children : List Nat
deriving DecidableEq, Repr

/-- Look up the first entry with the given key in an association list. -/
def lookupN (k : Nat) : List (Nat × α) → Option α
  | [] => none
  | (k', v) :: r => if k' = k then some v else lookupN k r

/-- Update the first entry with the given key in an association list. -/
def updateN (k : Nat) (f : α → α) : List (Nat × α) → List (Nat × α)
  | [] => []
  | (k', v) :: r => if k' = k then (k', f v) :: r else (k', v) :: updateN k f r

/-- Remove every entry with the given key from an association list. -/
def removeN (k : Nat) : List (Nat × α) → List (Nat × α)
  | [] => []
  | (k', v) :: r => if k' = k then removeN k r else (k', v) :: removeN k r

/-- Modelled from the spec: the Indexed Graph (src/graph.rs, absent from
src/): a store of nodes keyed by opaque identifiers minted on insertion, with
`add_node`, `add_edge` (a no-op when the parent is absent), `contains`,
mutable lookup, `remove_node`, and `walk`. -/
structure Graph (T : Type) where
  next : Nat
  nodes : List (Nat × NodeEntry T)
deriving DecidableEq, Repr

namespace Graph

/-- Modelled from the spec: `add_node(payload) -> id` mints a fresh
identifier and stores the payload with no outgoing edges. -/
def add_node (g : Graph T) (st : State T) : Nat × Graph T :=
  (g.next, { next := g.next + 1, nodes := (g.next, ⟨st, []⟩) :: g.nodes })

/-- Modelled from the spec: `add_edge(parent_id, child_id)` records one edge
under the parent; a no-op if the parent is absent. -/
def add_edge (g : Graph T) (parent child : Nat) : Graph T :=
  { g with nodes := updateN parent (fun e => { e with children := e.children ++ [child] }) g.nodes }

/-- Modelled from the spec: `contains(id) -> bool`. -/
def contains (g : Graph T) (i : Nat) : Bool :=
  (lookupN i g.nodes).isSome

/-- The stored state of a node, if present. -/
def getSt (g : Graph T) (i : Nat) : Option (State T) :=
  (lookupN i g.nodes).map (·.st)

/-- Replace the stored state of a node (the mutable-lookup write used by
`TaskWalker::next`); a no-op if the node is absent. -/
def setSt (g : Graph T) (i : Nat) (st : State T) : Graph T :=
  { g with nodes := updateN i (fun e => { e with st := st }) g.nodes }

/-- Modelled from the spec: `remove_node(id)` deletes the node and its
recorded outgoing edges; edges of other nodes that name the removed node
survive as stale references. -/
def remove_node (g : Graph T) (i : Nat) : Graph T :=
  { g with nodes := removeN i g.nodes }

/-- Modelled from the spec: `walk(id)`, the traversal used to notify a
completed node's dependents: it yields the targets of the edges recorded
under `id`, one per recorded edge, in insertion order (the reading under
which the spec's count bookkeeping — one decrement per completing parent per
recorded edge — and its ordering guarantees are coherent).  Empty if the
node is absent. -/
def walk (g : Graph T) (i : Nat) : List Nat :=
  ((lookupN i g.nodes).map (·.children)).getD []

end Graph

/-- `TaskGraph<T>` of src/src/lib.rs lines 15-18: the Indexed Graph of
per-task states plus the buffer of zero-dependency tasks waiting to enter the
execution queue (`pending`, holding `IndexFuture`s, i.e. (id, task) pairs). -/
structure TaskGraph (T : Type) where
  dag : Graph T
  pending : List (Nat × T)
deriving DecidableEq, Repr

/-- `TaskGraph::new` (src/src/lib.rs lines 33-41). -/
def TaskGraph.new : TaskGraph T :=
  { dag := { next := 0, nodes := [] }, pending := [] }

/-- `TaskGraph::add_task` (src/src/lib.rs lines 52-64), the ungated
pre-execution constructor: an empty dependency list inserts `Running` and
buffers the task; otherwise the node is inserted `Pending { count: deps.len(), task }`
and one edge is recorded from each dependency (the graph drops edges whose
parent is absent). -/
def TaskGraph.add_task (g : TaskGraph T) (deps : List Nat) (task : T) :
    Nat × TaskGraph T :=
  if deps.isEmpty then
    let r := g.dag.add_node .running
    (r.1, { dag := r.2, pending := g.pending ++ [(r.1, task)] })
  else
    let r := g.dag.add_node (.pending deps.length task)
    (r.1, { dag := deps.foldl (fun d parent => d.add_edge parent r.1) r.2,
            pending := g.pending })

/-- `Async` of futures 0.1: the result of a non-blocking attempt. -/
inductive Async (α : Type) where
  | ready (a : α)
  | notReady
deriving DecidableEq, Repr

namespace AddTask

/-- `AddTask::add_task` (src/src/lib.rs lines 97-117), the gated submission
through the `BiLock`: `lockOk` is whether `poll_lock` obtained the lock this
attempt.  On failure nothing happens; on success the dependency count is the
number of `deps` entries present in the graph, a zero count inserts `Running`
and buffers the task, and otherwise the node is inserted
`Pending { count, task }` with an edge recorded from each dependency still
present. -/
def add_task (lockOk : Bool) (g : TaskGraph T) (deps : List Nat) (task : T) :
    Async Nat × TaskGraph T :=
  if lockOk then
    let count := (deps.filter (fun i => g.dag.contains i)).length
    if count = 0 then
      let r := g.dag.add_node .running
      (.ready r.1, { dag := r.2, pending := g.pending ++ [(r.1, task)] })
    else
      let r := g.dag.add_node (.pending count task)
      (.ready r.1, { dag := deps.foldl (fun d parent => d.add_edge parent r.1) r.2,
                     pending := g.pending })
  else
    (.notReady, g)

end AddTask

/-- `TaskWalker::next` (src/src/lib.rs lines 229-251) run to exhaustion over
a walker list, as `Execute::enqueue` does: each listed identifier that is
still present and `Pending` has its count decremented; when the decrement
reaches zero the task is extracted (the state is replaced by the `Running`
sentinel in the same iteration step) and handed back for enqueueing. -/
def cascade (dag : Graph T) : List Nat → Graph T × List (Nat × T)
  | [] => (dag, [])
  | i :: rest =>
    match dag.getSt i with
    | none => cascade dag rest
    | some .running => cascade dag rest
    | some (.pending c t) =>
      if c - 1 = 0 then
        let r := cascade (dag.setSt i .running) rest
        (r.1, (i, t) :: r.2)
      else
        cascade (dag.setSt i (.pending (c - 1) t)) rest

/-- The `done`-processing loop of `Execute::enqueue` (src/src/lib.rs lines
149-154): for each completed identifier, walk its recorded edges, cascade the
decrements, push the newly extracted tasks onto the queue, then remove the
completed node. -/
def processDone (dag : Graph T) (queue : List (Nat × T)) :
    List Nat → Graph T × List (Nat × T)
  | [] => (dag, queue)
  | i :: rest =>
    let r := cascade dag (dag.walk i)
    processDone (r.1.remove_node i) (queue ++ r.2) rest

/-- The state owned by `Execute` (src/src/lib.rs lines 124-129) together with
the shared task graph: the multiplexer contents (`queue`, the tagged futures
of the `FuturesUnordered`), the `done` buffer of completed-but-unprocessed
identifiers, and whether the one-shot cancellation channel has been fired or
its sender dropped (`cancelled`). -/
structure ExecSt (T : Type) where
  graph : TaskGraph T
  queue : List (Nat × T)
  done : List Nat
  cancelled : Bool
deriving DecidableEq, Repr

/-- `TaskGraph::execute` (src/src/lib.rs lines 66-77): drains the pending
buffer into a fresh multiplexer and hands the shared graph to the two
handles, with an unfired cancellation channel and an empty `done` buffer. -/
def TaskGraph.execute (g : TaskGraph T) : ExecSt T :=
  { graph := { dag := g.dag, pending := [] },
    queue := g.pending, done := [], cancelled := false }

/-- `Execute::enqueue` (src/src/lib.rs lines 139-157): if the lock is
unavailable the whole step is skipped; otherwise the buffered
zero-dependency tasks move into the multiplexer, then each `done` identifier
is walked (decrementing dependents, extracting the newly ready ones into the
multiplexer) and removed, and `done` is cleared. -/
def enqueue (lockOk : Bool) (s : ExecSt T) : ExecSt T :=
  if lockOk then
    let r := processDone s.graph.dag (s.queue ++ s.graph.pending) s.done
    { s with graph := { dag := r.1, pending := [] }, queue := r.2, done := [] }
  else s

/-- The environment's choice of which in-flight tagged future (by queue
position) the `FuturesUnordered` reports on one poll, and with what result:
nothing ready, the task at position `k` succeeds with value `v`, or the task
at position `k` fails with error `e`. -/
inductive QRes (V E : Type) where
  | silent
  | ok (k : Nat) (v : V)
  | err (k : Nat) (e : E)
deriving DecidableEq, Repr

/-- The nondeterminism resolved by the runtime on one `Execute::poll`:
whether `poll_lock` succeeds inside `enqueue`, and what the multiplexer
reports. -/
structure Env (V E : Type) where
  lockOk : Bool
  qres : QRes V E
deriving DecidableEq, Repr

/-- One observable outcome of a step: `none` for steps of the submission
handle (they produce no stream output), and for `Execute::poll` the four
outcomes `ended` (Ready(None)), `notReady`, an `(identity, value)` item, or a
task error. -/
inductive Out (V E : Type) where
  | none
  | ended
  | notReady
  | item (i : Nat) (v : V)
  | error (e : E)
deriving DecidableEq, Repr

/-- `Execute::poll` (src/src/lib.rs lines 171-188): first consult the
cancellation channel (fired or sender dropped ends the stream immediately);
otherwise run `enqueue` best-effort, then poll the multiplexer: a completed
tagged future is removed from the multiplexer and its identifier appended to
`done` as its pair is yielded; a failed one is removed as its error is
returned; otherwise the poll suspends (an empty multiplexer's Ready(None) is
also mapped to NotReady). -/
def pollStep (env : Env V E) (s : ExecSt T) : ExecSt T × Out V E :=
  if s.cancelled then (s, .ended)
  else
    let s' := enqueue env.lockOk s
    match env.qres with
    | .silent => (s', .notReady)
    | .ok k v =>
      match s'.queue[k]? with
      | some (i, _) =>
        ({ s' with queue := s'.queue.eraseIdx k, done := s'.done ++ [i] }, .item i v)
      | none => (s', .notReady)
    | .err k e =>
      match s'.queue[k]? with
      | some _ => ({ s' with queue := s'.queue.eraseIdx k }, .error e)
      | none => (s', .notReady)

/-- One step of the whole system: a poll of the execution stream, a
submission through `AddTask::add_task`, or `AddTask::abort` (which also
stands for the sender being dropped: the receiver treats both alike). -/
inductive Step (T V E : Type) where
  | poll (env : Env V E)
  | add (lockOk : Bool) (deps : List Nat) (task : T)
  | abort
deriving DecidableEq, Repr

/-- Apply one step to the system state, producing the next state and the
observable outcome. -/
def stepF (s : ExecSt T) : Step T V E → ExecSt T × Out V E
  | .poll env => pollStep env s
  | .add lockOk deps task =>
    ({ s with graph := (AddTask.add_task lockOk s.graph deps task).2 }, .none)
  | .abort => ({ s with cancelled := true }, .none)

/-- The state after driving the system through a list of steps. -/
def runState (s : ExecSt T) : List (Step T V E) → ExecSt T
  | [] => s
  | st :: tr => runState (stepF s st).1 tr

/-- The outcomes observed while driving the system through a list of steps
(one outcome per step, in order). -/
def runOuts (s : ExecSt T) : List (Step T V E) → List (Out V E)
  | [] => []
  | st :: tr => (stepF s st).2 :: runOuts (stepF s st).1 tr

/-! ## Invariants -/

/-- The identifiers of an association list (node store, queue, buffer). -/
def keysOf (l : List (Nat × α)) : List Nat := l.map (·.1)

/-- The number of recorded edges into `x`: one per occurrence of `x` in any
node's edge list. -/
def inEdges (ns : List (Nat × NodeEntry T)) (x : Nat) : Nat :=
  (ns.map (fun q => q.2.children.count x)).sum

/-- Whether an optional state is `Pending`. -/
def isPendB : Option (State T) → Bool
  | some (.pending _ _) => true
  | _ => false

/-- Whether an optional state is the `Running` sentinel. -/
def isRunB : Option (State T) → Bool
  | some .running => true
  | _ => false

/-- Per-node count discipline: a `Pending` node's count equals the number of
recorded edges into it and is at least one. -/
def nodeOk (ns : List (Nat × NodeEntry T)) (p : Nat × NodeEntry T) : Prop :=
  match p.2.st with
  | .pending c _ => c = inEdges ns p.1 ∧ 1 ≤ c
  | .running => True

instance (ns : List (Nat × NodeEntry T)) (p : Nat × NodeEntry T) :
    Decidable (nodeOk ns p) :=
  match h : p.2.st with
  | .pending c _ => decidable_of_iff (c = inEdges ns p.1 ∧ 1 ≤ c) (by simp [nodeOk, h])
  | .running => decidable_of_iff True (by simp [nodeOk, h])

/-- Invariant of the graph alone: identifiers are unique and below the mint
counter, recorded edges point below the mint counter, every `Pending` count
equals the number of recorded edges into the node and is positive, and every
recorded edge's target is present and `Pending`. -/
def GInv (dag : Graph T) : Prop :=
  (keysOf dag.nodes).Nodup ∧
  (∀ p ∈ dag.nodes, p.1 < dag.next) ∧
  (∀ p ∈ dag.nodes, ∀ c ∈ p.2.children, c < dag.next) ∧
  (∀ p ∈ dag.nodes, nodeOk dag.nodes p) ∧
  (∀ p ∈ dag.nodes, ∀ x ∈ p.2.children, isPendB (dag.getSt x) = true)

/-- Invariant of the whole system state: the graph invariant, plus: the
pending buffer, the multiplexer and the `done` buffer hold pairwise-distinct
identifiers with no identifier in two of them, and each such identifier names
a present node in the `Running` state. -/
def Inv (s : ExecSt T) : Prop :=
  GInv s.graph.dag ∧
  (keysOf s.graph.pending).Nodup ∧
  (keysOf s.queue).Nodup ∧
  s.done.Nodup ∧
  (∀ i ∈ keysOf s.graph.pending, s.graph.dag.getSt i = some .running) ∧
  (∀ i ∈ keysOf s.queue, s.graph.dag.getSt i = some .running) ∧
  (∀ i ∈ s.done, s.graph.dag.getSt i = some .running) ∧
  (∀ i ∈ keysOf s.graph.pending, i ∉ keysOf s.queue ∧ i ∉ s.done) ∧
  (∀ i ∈ keysOf s.queue, i ∉ s.done)

/-- Invariant of a task graph before `execute`: the graph invariant plus
distinct, present-and-`Running` identifiers in the pending buffer. -/
def InvT (g : TaskGraph T) : Prop :=
  GInv g.dag ∧
  (keysOf g.pending).Nodup ∧
  (∀ i ∈ keysOf g.pending, g.dag.getSt i = some .running)

/-- A step is well formed when a submission only names identifiers the graph
has already minted (the opaque `Index` values a caller can actually hold). -/
def wfStep (s : ExecSt T) : Step T V E → Bool
  | .add _ deps _ => deps.all (fun d => d < s.graph.dag.next)
  | _ => true

/-- A trace is well formed when every submission in it only names
already-minted identifiers. -/
def wfTrace (s : ExecSt T) : List (Step T V E) → Bool
  | [] => true
  | st :: tr => wfStep s st && wfTrace (stepF s st).1 tr

/-! ## Association-list lemmas -/

theorem lookupN_updateN_self (k : Nat) (f : α → α) (l : List (Nat × α)) :
    lookupN k (updateN k f l) = (lookupN k l).map f := by
  induction l with
  | nil => rfl
  | cons p r ih =>
    obtain ⟨k', v⟩ := p
    by_cases h : k' = k <;> simp [lookupN, updateN, h, ih]

theorem lookupN_updateN_ne (f : α → α) (l : List (Nat × α)) (h : k' ≠ k) :
    lookupN k' (updateN k f l) = lookupN k' l := by
  induction l with
  | nil => rfl
  | cons p r ih =>
    obtain ⟨k'', v⟩ := p
    simp only [updateN]
    by_cases h2 : k'' = k
    · rw [if_pos h2, lookupN, lookupN, if_neg (h2 ▸ Ne.symm h), if_neg (h2 ▸ Ne.symm h)]
    · rw [if_neg h2, lookupN, lookupN]
      by_cases h3 : k'' = k'
      · rw [if_pos h3, if_pos h3]
      · rw [if_neg h3, if_neg h3, ih]

theorem lookupN_removeN_self (k : Nat) (l : List (Nat × α)) :
    lookupN k (removeN k l) = none := by
  induction l with
  | nil => rfl
  | cons p r ih =>
    obtain ⟨k', v⟩ := p
    simp only [removeN]
    by_cases h : k' = k
    · rw [if_pos h]; exact ih
    · rw [if_neg h, lookupN, if_neg h]; exact ih

theorem lookupN_removeN_ne (l : List (Nat × α)) (h : k' ≠ k) :
    lookupN k' (removeN k l) = lookupN k' l := by
  induction l with
  | nil => rfl
  | cons p r ih =>
    obtain ⟨k'', v⟩ := p
    simp only [removeN]
    by_cases h2 : k'' = k
    · rw [if_pos h2, lookupN, if_neg (h2 ▸ Ne.symm h)]
      exact ih
    · rw [if_neg h2, lookupN, lookupN]
      by_cases h3 : k'' = k'
      · rw [if_pos h3, if_pos h3]
      · rw [if_neg h3, if_neg h3, ih]

theorem keysOf_updateN (k : Nat) (f : α → α) (l : List (Nat × α)) :
    keysOf (updateN k f l) = keysOf l := by
  induction l with
  | nil => rfl
  | cons p r ih =>
    obtain ⟨k', v⟩ := p
    simp only [updateN]
    by_cases h : k' = k
    · rw [if_pos h]; rfl
    · rw [if_neg h]
      simp only [keysOf, List.map_cons] at ih ⊢
      rw [ih]

theorem mem_keysOf_removeN {l : List (Nat × α)} :
    x ∈ keysOf (removeN k l) ↔ x ∈ keysOf l ∧ x ≠ k := by
  induction l with
  | nil => simp [keysOf, removeN]
  | cons p r ih =>
    obtain ⟨k', v⟩ := p
    simp only [removeN]
    by_cases h : k' = k
    · subst h
      rw [if_pos rfl, ih]
      simp only [keysOf, List.map_cons, List.mem_cons]
      constructor
      · tauto
      · rintro ⟨rfl | hx, hne⟩
        · exact absurd rfl hne
        · exact ⟨hx, hne⟩
    · rw [if_neg h]
      simp only [keysOf, List.map_cons, List.mem_cons] at ih ⊢
      rw [ih]
      constructor
      · rintro (rfl | ⟨hx, hne⟩)
        · exact ⟨Or.inl rfl, h⟩
        · exact ⟨Or.inr hx, hne⟩
      · rintro ⟨rfl | hx, hne⟩
        · exact Or.inl rfl
        · exact Or.inr ⟨hx, hne⟩

theorem lookupN_isSome_iff {l : List (Nat × α)} :
    (lookupN k l).isSome = true ↔ k ∈ keysOf l := by
  induction l with
  | nil => simp [lookupN, keysOf]
  | cons p r ih =>
    obtain ⟨k', v⟩ := p
    simp only [lookupN, keysOf, List.map_cons, List.mem_cons]
    by_cases h : k' = k
    · simp [h]
    · rw [if_neg h]
      rw [keysOf] at ih
      rw [ih]
      constructor
      · tauto
      · rintro (rfl | hx)
        · exact absurd rfl h
        · exact hx

theorem lookupN_eq_none_iff {l : List (Nat × α)} :
    lookupN k l = none ↔ k ∉ keysOf l := by
  rw [← lookupN_isSome_iff (l := l) (k := k)]
  cases lookupN k l <;> simp

theorem lookupN_mem {l : List (Nat × α)} (h : lookupN k l = some v) :
    (k, v) ∈ l := by
  induction l with
  | nil => simp [lookupN] at h
  | cons p r ih =>
    obtain ⟨k', v'⟩ := p
    by_cases h2 : k' = k
    · subst h2
      rw [lookupN, if_pos rfl] at h
      cases h
      exact List.mem_cons_self _ _
    · rw [lookupN, if_neg h2] at h
      exact List.mem_cons_of_mem _ (ih h)

theorem mem_lookupN {l : List (Nat × α)} (hnd : (keysOf l).Nodup)
    (h : (k, v) ∈ l) : lookupN k l = some v := by
  induction l with
  | nil => simp at h
  | cons p r ih =>
    obtain ⟨k', v'⟩ := p
    rw [keysOf, List.map_cons, List.nodup_cons] at hnd
    rcases List.mem_cons.1 h with h1 | h1
    · cases h1
      rw [lookupN, if_pos rfl]
    · have hk : k' ≠ k := by
        rintro rfl
        exact hnd.1 (List.mem_map.2 ⟨(k', v), h1, rfl⟩)
      rw [lookupN, if_neg hk]
      exact ih hnd.2 h1

/-! ## Graph-operation lemmas -/

theorem updateN_eq_of_not_mem {l : List (Nat × α)} (h : k ∉ keysOf l) :
    updateN k f l = l := by
  induction l with
  | nil => rfl
  | cons p r ih =>
    obtain ⟨k', v⟩ := p
    simp only [keysOf, List.map_cons, List.mem_cons] at h
    push_neg at h
    rw [updateN, if_neg (fun hh => h.1 hh.symm), ih (by simpa [keysOf] using h.2)]

theorem removeN_eq_of_not_mem {l : List (Nat × α)} (h : k ∉ keysOf l) :
    removeN k l = l := by
  induction l with
  | nil => rfl
  | cons p r ih =>
    obtain ⟨k', v⟩ := p
    simp only [keysOf, List.map_cons, List.mem_cons] at h
    push_neg at h
    rw [removeN, if_neg (fun hh => h.1 hh.symm), ih (by simpa [keysOf] using h.2)]

namespace Graph

theorem contains_iff {g : Graph T} : g.contains i = true ↔ i ∈ keysOf g.nodes := by
  rw [contains, lookupN_isSome_iff]

theorem contains_eq_false_iff {g : Graph T} :
    g.contains i = false ↔ i ∉ keysOf g.nodes := by
  rw [← contains_iff (g := g) (i := i)]
  cases g.contains i <;> simp

theorem getSt_isSome_iff {g : Graph T} :
    (g.getSt i).isSome = true ↔ i ∈ keysOf g.nodes := by
  rw [getSt, ← lookupN_isSome_iff (l := g.nodes) (k := i)]
  cases lookupN i g.nodes <;> simp

theorem getSt_eq_none_iff {g : Graph T} :
    g.getSt i = none ↔ i ∉ keysOf g.nodes := by
  rw [← getSt_isSome_iff (g := g) (i := i)]
  cases g.getSt i <;> simp

@[simp] theorem next_setSt (g : Graph T) (i : Nat) (st : State T) :
    (g.setSt i st).next = g.next := rfl

@[simp] theorem keysOf_setSt (g : Graph T) (i : Nat) (st : State T) :
    keysOf (g.setSt i st).nodes = keysOf g.nodes := keysOf_updateN ..

theorem getSt_setSt_self (g : Graph T) (i : Nat) (st : State T) :
    (g.setSt i st).getSt i = (g.getSt i).map (fun _ => st) := by
  rw [setSt, getSt, getSt, lookupN_updateN_self]
  cases lookupN i g.nodes <;> rfl

theorem getSt_setSt_ne (g : Graph T) (st : State T) (h : x ≠ i) :
    (g.setSt i st).getSt x = g.getSt x := by
  rw [setSt, getSt, getSt, lookupN_updateN_ne _ _ h]

theorem walk_setSt (g : Graph T) (i : Nat) (st : State T) (x : Nat) :
    (g.setSt i st).walk x = g.walk x := by
  rw [setSt, walk, walk]
  by_cases h : x = i
  · subst h
    rw [lookupN_updateN_self]
    cases lookupN x g.nodes <;> rfl
  · rw [lookupN_updateN_ne _ _ h]

theorem inEdges_updateN_children_eq {f : NodeEntry T → NodeEntry T}
    (hf : ∀ v, (f v).children = v.children) (ns : List (Nat × NodeEntry T)) :
    inEdges (updateN k f ns) x = inEdges ns x := by
  induction ns with
  | nil => rfl
  | cons p r ih =>
    obtain ⟨k', v⟩ := p
    rw [updateN]
    by_cases h : k' = k
    · rw [if_pos h, inEdges, inEdges, List.map_cons, List.map_cons, List.sum_cons,
        List.sum_cons, hf]
    · rw [if_neg h, inEdges, inEdges, List.map_cons, List.map_cons, List.sum_cons,
        List.sum_cons]
      rw [inEdges, inEdges] at ih
      rw [ih]

@[simp] theorem inEdges_setSt (g : Graph T) (i : Nat) (st : State T) (x : Nat) :
    inEdges (g.setSt i st).nodes x = inEdges g.nodes x := by
  show inEdges (updateN i (fun e => { e with st := st }) g.nodes) x = inEdges g.nodes x
  exact inEdges_updateN_children_eq (f := fun e => { e with st := st }) (fun _ => rfl) _

@[simp] theorem next_remove_node (g : Graph T) (i : Nat) :
    (g.remove_node i).next = g.next := rfl

theorem getSt_remove_node_self (g : Graph T) (i : Nat) :
    (g.remove_node i).getSt i = none := by
  rw [remove_node, getSt, lookupN_removeN_self]
  rfl

theorem getSt_remove_node_ne (g : Graph T) (h : x ≠ i) :
    (g.remove_node i).getSt x = g.getSt x := by
  rw [remove_node, getSt, getSt, lookupN_removeN_ne _ h]

theorem walk_remove_node_ne (g : Graph T) (h : x ≠ i) :
    (g.remove_node i).walk x = g.walk x := by
  rw [remove_node, walk, walk, lookupN_removeN_ne _ h]

theorem mem_keysOf_remove_node {g : Graph T} :
    x ∈ keysOf (g.remove_node i).nodes ↔ x ∈ keysOf g.nodes ∧ x ≠ i :=
  mem_keysOf_removeN

theorem inEdges_removeN_split {ns : List (Nat × NodeEntry T)}
    (hnd : (keysOf ns).Nodup) (h : lookupN d ns = some e) :
    inEdges ns x = e.children.count x + inEdges (removeN d ns) x := by
  induction ns with
  | nil => simp [lookupN] at h
  | cons p r ih =>
    obtain ⟨k', v⟩ := p
    rw [keysOf, List.map_cons, List.nodup_cons] at hnd
    by_cases hk : k' = d
    · subst hk
      rw [lookupN, if_pos rfl] at h
      cases h
      rw [removeN, if_pos rfl, removeN_eq_of_not_mem hnd.1,
        inEdges, List.map_cons, List.sum_cons]
      rfl
    · rw [lookupN, if_neg hk] at h
      rw [removeN, if_neg hk, inEdges, inEdges, List.map_cons, List.map_cons,
        List.sum_cons, List.sum_cons]
      have ih2 := ih hnd.2 h
      rw [inEdges, inEdges] at ih2
      rw [ih2]
      omega

theorem inEdges_remove_node {g : Graph T} (hnd : (keysOf g.nodes).Nodup)
    (h : lookupN d g.nodes = some e) :
    inEdges g.nodes x = e.children.count x + inEdges (g.remove_node d).nodes x :=
  inEdges_removeN_split hnd h

theorem next_add_edge (g : Graph T) (p c : Nat) : (g.add_edge p c).next = g.next := rfl

theorem keysOf_add_edge (g : Graph T) (p c : Nat) :
    keysOf (g.add_edge p c).nodes = keysOf g.nodes := keysOf_updateN ..

theorem contains_add_edge (g : Graph T) (p c q : Nat) :
    (g.add_edge p c).contains q = g.contains q := by
  rw [contains, contains, add_edge]
  by_cases h : q = p
  · subst h
    rw [lookupN_updateN_self]
    cases lookupN q g.nodes <;> rfl
  · rw [lookupN_updateN_ne _ _ h]

theorem getSt_add_edge (g : Graph T) (p c x : Nat) :
    (g.add_edge p c).getSt x = g.getSt x := by
  rw [add_edge, getSt, getSt]
  by_cases h : x = p
  · subst h
    rw [lookupN_updateN_self]
    cases lookupN x g.nodes <;> rfl
  · rw [lookupN_updateN_ne _ _ h]

theorem add_edge_of_absent (g : Graph T) (h : g.contains p = false) :
    g.add_edge p c = g := by
  rw [add_edge, updateN_eq_of_not_mem (contains_eq_false_iff.1 h)]

theorem walk_add_edge_ne (g : Graph T) (h : x ≠ p) :
    (g.add_edge p c).walk x = g.walk x := by
  rw [add_edge, walk, walk, lookupN_updateN_ne _ _ h]

theorem walk_add_edge_self (g : Graph T) (h : g.contains p = true) :
    (g.add_edge p c).walk p = g.walk p ++ [c] := by
  rw [add_edge, walk, walk, lookupN_updateN_self]
  rw [contains, Option.isSome_iff_exists] at h
  obtain ⟨e, he⟩ := h
  rw [he]
  rfl

theorem inEdges_updateN_append {ns : List (Nat × NodeEntry T)} (hk : k ∈ keysOf ns) :
    inEdges (updateN k (fun e => { e with children := e.children ++ [c] }) ns) x
      = inEdges ns x + (if x = c then 1 else 0) := by
  induction ns with
  | nil => simp [keysOf] at hk
  | cons q r ih =>
    obtain ⟨k', v⟩ := q
    rw [updateN]
    by_cases h : k' = k
    · rw [if_pos h, inEdges, inEdges, List.map_cons, List.map_cons, List.sum_cons,
        List.sum_cons]
      dsimp only
      rw [List.count_append]
      have hc : List.count x [c] = if x = c then 1 else 0 := by
        by_cases hx : x = c <;> simp [hx]
      rw [hc]
      omega
    · rw [if_neg h, inEdges, inEdges, List.map_cons, List.map_cons, List.sum_cons,
        List.sum_cons]
      rw [keysOf, List.map_cons, List.mem_cons] at hk
      rcases hk with rfl | hk
      · exact absurd rfl h
      · have ih2 := ih hk
        rw [inEdges, inEdges] at ih2
        rw [ih2]
        omega

theorem inEdges_add_edge_present {g : Graph T} (h : g.contains p = true) :
    inEdges (g.add_edge p c).nodes x = inEdges g.nodes x + (if x = c then 1 else 0) :=
  inEdges_updateN_append (contains_iff.1 h)

theorem foldl_add_edge_getSt (deps : List Nat) (g : Graph T) (B x : Nat) :
    (deps.foldl (fun d parent => d.add_edge parent B) g).getSt x = g.getSt x := by
  induction deps generalizing g with
  | nil => rfl
  | cons p rest ih => rw [List.foldl_cons, ih, getSt_add_edge]

theorem foldl_add_edge_next (deps : List Nat) (g : Graph T) (B : Nat) :
    (deps.foldl (fun d parent => d.add_edge parent B) g).next = g.next := by
  induction deps generalizing g with
  | nil => rfl
  | cons p rest ih => rw [List.foldl_cons, ih, next_add_edge]

theorem foldl_add_edge_keysOf (deps : List Nat) (g : Graph T) (B : Nat) :
    keysOf (deps.foldl (fun d parent => d.add_edge parent B) g).nodes
      = keysOf g.nodes := by
  induction deps generalizing g with
  | nil => rfl
  | cons p rest ih => rw [List.foldl_cons, ih, keysOf_add_edge]

theorem foldl_add_edge_contains (deps : List Nat) (g : Graph T) (B q : Nat) :
    (deps.foldl (fun d parent => d.add_edge parent B) g).contains q = g.contains q := by
  induction deps generalizing g with
  | nil => rfl
  | cons p rest ih => rw [List.foldl_cons, ih, contains_add_edge]

theorem foldl_add_edge_inEdges (deps : List Nat) (g : Graph T) (B x : Nat) :
    inEdges (deps.foldl (fun d parent => d.add_edge parent B) g).nodes x
      = inEdges g.nodes x
        + (if x = B then (deps.filter (fun p => g.contains p)).length else 0) := by
  induction deps generalizing g with
  | nil => simp
  | cons p rest ih =>
    rw [List.foldl_cons, ih]
    have hfe : rest.filter (fun q => (g.add_edge p B).contains q)
        = rest.filter (fun q => g.contains q) :=
      List.filter_congr (fun q _ => by rw [contains_add_edge])
    rw [hfe]
    by_cases hp : g.contains p = true
    · rw [inEdges_add_edge_present hp]
      have hflt : (p :: rest).filter (fun q => g.contains q)
          = p :: rest.filter (fun q => g.contains q) := by
        rw [List.filter_cons, if_pos (by simpa using hp)]
      rw [hflt, List.length_cons]
      by_cases hx : x = B
      · rw [if_pos hx, if_pos hx, if_pos hx]
        omega
      · rw [if_neg hx, if_neg hx, if_neg hx]
    · have hcf : g.contains p = false := by
        cases h2 : g.contains p with
        | true => exact absurd h2 hp
        | false => rfl
      rw [add_edge_of_absent _ hcf]
      have hflt : (p :: rest).filter (fun q => g.contains q)
          = rest.filter (fun q => g.contains q) := by
        rw [List.filter_cons, if_neg (by simp [hcf])]
      rw [hflt]

theorem foldl_add_edge_walk (deps : List Nat) (g : Graph T) (B x : Nat) :
    (deps.foldl (fun d parent => d.add_edge parent B) g).walk x
      = g.walk x
        ++ List.replicate (if g.contains x = true then deps.count x else 0) B := by
  induction deps generalizing g with
  | nil => simp
  | cons p rest ih =>
    rw [List.foldl_cons, ih, contains_add_edge]
    by_cases hxp : x = p
    · subst hxp
      by_cases hx : g.contains x = true
      · rw [if_pos hx, if_pos hx, walk_add_edge_self _ hx, List.count_cons_self,
          List.append_assoc, List.singleton_append, ← List.replicate_succ]
      · have hcf : g.contains x = false := by
          cases h2 : g.contains x with
          | true => exact absurd h2 hx
          | false => rfl
        rw [add_edge_of_absent _ hcf, if_neg hx, if_neg hx]
    · rw [walk_add_edge_ne _ hxp, List.count_cons_of_ne hxp]

end Graph

/-! ## Cascade (`TaskWalker`) lemmas -/


theorem cascade_cons_none {dag : Graph T} (h : dag.getSt i = none) :
    cascade dag (i :: rest) = cascade dag rest := by
  rw [cascade, h]

theorem cascade_cons_running {dag : Graph T} (h : dag.getSt i = some .running) :
    cascade dag (i :: rest) = cascade dag rest := by
  rw [cascade, h]

theorem cascade_cons_extract {dag : Graph T} (h : dag.getSt i = some (.pending c t))
    (hc : c - 1 = 0) :
    cascade dag (i :: rest)
      = ((cascade (dag.setSt i .running) rest).1,
         (i, t) :: (cascade (dag.setSt i .running) rest).2) := by
  simp only [cascade, h, if_pos hc]

theorem cascade_cons_dec {dag : Graph T} (h : dag.getSt i = some (.pending c t))
    (hc : ¬ c - 1 = 0) :
    cascade dag (i :: rest) = cascade (dag.setSt i (.pending (c - 1) t)) rest := by
  simp only [cascade, h, if_neg hc]

theorem cascade_next (dag : Graph T) (l : List Nat) :
    (cascade dag l).1.next = dag.next := by
  induction l generalizing dag with
  | nil => rfl
  | cons i rest ih =>
    cases h : dag.getSt i with
    | none => rw [cascade_cons_none h]; exact ih dag
    | some st =>
      cases st with
      | running => rw [cascade_cons_running h]; exact ih dag
      | pending c t =>
        by_cases hc : c - 1 = 0
        · rw [cascade_cons_extract h hc]
          show (cascade (dag.setSt i .running) rest).1.next = dag.next
          rw [ih, Graph.next_setSt]
        · rw [cascade_cons_dec h hc, ih, Graph.next_setSt]

theorem cascade_keysOf (dag : Graph T) (l : List Nat) :
    keysOf (cascade dag l).1.nodes = keysOf dag.nodes := by
  induction l generalizing dag with
  | nil => rfl
  | cons i rest ih =>
    cases h : dag.getSt i with
    | none => rw [cascade_cons_none h]; exact ih dag
    | some st =>
      cases st with
      | running => rw [cascade_cons_running h]; exact ih dag
      | pending c t =>
        by_cases hc : c - 1 = 0
        · rw [cascade_cons_extract h hc]
          show keysOf (cascade (dag.setSt i .running) rest).1.nodes = keysOf dag.nodes
          rw [ih, Graph.keysOf_setSt]
        · rw [cascade_cons_dec h hc, ih, Graph.keysOf_setSt]

theorem cascade_walk (dag : Graph T) (l : List Nat) (x : Nat) :
    (cascade dag l).1.walk x = dag.walk x := by
  induction l generalizing dag with
  | nil => rfl
  | cons i rest ih =>
    cases h : dag.getSt i with
    | none => rw [cascade_cons_none h]; exact ih dag
    | some st =>
      cases st with
      | running => rw [cascade_cons_running h]; exact ih dag
      | pending c t =>
        by_cases hc : c - 1 = 0
        · rw [cascade_cons_extract h hc]
          show (cascade (dag.setSt i .running) rest).1.walk x = dag.walk x
          rw [ih, Graph.walk_setSt]
        · rw [cascade_cons_dec h hc, ih, Graph.walk_setSt]

theorem cascade_inEdges (dag : Graph T) (l : List Nat) (x : Nat) :
    inEdges (cascade dag l).1.nodes x = inEdges dag.nodes x := by
  induction l generalizing dag with
  | nil => rfl
  | cons i rest ih =>
    cases h : dag.getSt i with
    | none => rw [cascade_cons_none h]; exact ih dag
    | some st =>
      cases st with
      | running => rw [cascade_cons_running h]; exact ih dag
      | pending c t =>
        by_cases hc : c - 1 = 0
        · rw [cascade_cons_extract h hc]
          show inEdges (cascade (dag.setSt i .running) rest).1.nodes x
            = inEdges dag.nodes x
          rw [ih, Graph.inEdges_setSt]
        · rw [cascade_cons_dec h hc, ih, Graph.inEdges_setSt]

theorem cascade_getSt_none (dag : Graph T) (l : List Nat)
    (h : dag.getSt x = none) : (cascade dag l).1.getSt x = none := by
  rw [Graph.getSt_eq_none_iff, cascade_keysOf]
  exact Graph.getSt_eq_none_iff.1 h

theorem cascade_getSt_running (dag : Graph T) (l : List Nat)
    (h : dag.getSt x = some .running) :
    (cascade dag l).1.getSt x = some .running := by
  induction l generalizing dag with
  | nil => exact h
  | cons i rest ih =>
    cases h2 : dag.getSt i with
    | none => rw [cascade_cons_none h2]; exact ih dag h
    | some st =>
      cases st with
      | running => rw [cascade_cons_running h2]; exact ih dag h
      | pending c t =>
        have hxi : x ≠ i := fun he => by rw [he, h2] at h; cases h
        by_cases hc : c - 1 = 0
        · rw [cascade_cons_extract h2 hc]
          show (cascade (dag.setSt i .running) rest).1.getSt x = some .running
          exact ih _ (by rw [Graph.getSt_setSt_ne _ _ hxi]; exact h)
        · rw [cascade_cons_dec h2 hc]
          exact ih _ (by rw [Graph.getSt_setSt_ne _ _ hxi]; exact h)

theorem cascade_outs_pending (dag : Graph T) (l : List Nat) :
    ∀ q ∈ (cascade dag l).2, ∃ c', dag.getSt q.1 = some (.pending c' q.2) := by
  induction l generalizing dag with
  | nil => intro q hq; cases hq
  | cons i rest ih =>
    cases h : dag.getSt i with
    | none => rw [cascade_cons_none h]; exact ih dag
    | some st =>
      cases st with
      | running => rw [cascade_cons_running h]; exact ih dag
      | pending c t =>
        by_cases hc : c - 1 = 0
        · rw [cascade_cons_extract h hc]
          intro q hq
          show ∃ c', dag.getSt q.1 = some (.pending c' q.2)
          rcases List.mem_cons.1 hq with rfl | hq2
          · exact ⟨c, h⟩
          · obtain ⟨c', hc'⟩ := ih (dag.setSt i .running) q hq2
            by_cases hqi : q.1 = i
            · rw [hqi, Graph.getSt_setSt_self, h] at hc'
              cases hc'
            · rw [Graph.getSt_setSt_ne _ _ hqi] at hc'
              exact ⟨c', hc'⟩
        · rw [cascade_cons_dec h hc]
          intro q hq
          obtain ⟨c', hc'⟩ := ih (dag.setSt i (.pending (c - 1) t)) q hq
          by_cases hqi : q.1 = i
          · rw [hqi, Graph.getSt_setSt_self, h] at hc'
            cases hc'
            exact ⟨c, by rw [hqi]; exact h⟩
          · rw [Graph.getSt_setSt_ne _ _ hqi] at hc'
            exact ⟨c', hc'⟩

theorem cascade_outIds_nodup (dag : Graph T) (l : List Nat) :
    ((cascade dag l).2.map (·.1)).Nodup := by
  induction l generalizing dag with
  | nil => exact List.nodup_nil
  | cons i rest ih =>
    cases h : dag.getSt i with
    | none => rw [cascade_cons_none h]; exact ih dag
    | some st =>
      cases st with
      | running => rw [cascade_cons_running h]; exact ih dag
      | pending c t =>
        by_cases hc : c - 1 = 0
        · rw [cascade_cons_extract h hc]
          show (((i, t) :: (cascade (dag.setSt i .running) rest).2).map (·.1)).Nodup
          rw [List.map_cons, List.nodup_cons]
          refine ⟨?_, ih _⟩
          intro hmem
          obtain ⟨q, hq, hq1⟩ := List.mem_map.1 hmem
          obtain ⟨c', hc'⟩ := cascade_outs_pending _ _ q hq
          rw [hq1, Graph.getSt_setSt_self, h] at hc'
          cases hc'
        · rw [cascade_cons_dec h hc]
          exact ih _

theorem cascade_pending (dag : Graph T) (l : List Nat)
    (h : dag.getSt x = some (.pending c t)) :
    (l.count x < c ∨ l.count x = 0 →
      (cascade dag l).1.getSt x = some (.pending (c - l.count x) t)
        ∧ x ∉ (cascade dag l).2.map (·.1)) ∧
    (1 ≤ l.count x ∧ c ≤ l.count x →
      (cascade dag l).1.getSt x = some .running
        ∧ (x, t) ∈ (cascade dag l).2
        ∧ ((cascade dag l).2.map (·.1)).count x = 1) := by
  induction l generalizing dag c with
  | nil =>
    refine ⟨fun _ => ⟨by simpa using h, by simp [cascade]⟩, fun hm => ?_⟩
    simp at hm
  | cons i rest ih =>
    cases h2 : dag.getSt i with
    | none =>
      have hxi : x ≠ i := fun he => by rw [he, h2] at h; cases h
      rw [cascade_cons_none h2, List.count_cons_of_ne hxi]
      exact ih dag h
    | some st =>
      cases st with
      | running =>
        have hxi : x ≠ i := fun he => by rw [he, h2] at h; cases h
        rw [cascade_cons_running h2, List.count_cons_of_ne hxi]
        exact ih dag h
      | pending c2 t2 =>
        by_cases hxi : x = i
        · subst hxi
          rw [h] at h2
          cases h2
          rw [List.count_cons_self]
          by_cases hc : c - 1 = 0
          · rw [cascade_cons_extract h hc]
            have hrun : (dag.setSt x .running).getSt x = some .running := by
              rw [Graph.getSt_setSt_self, h]
              rfl
            have hfin := cascade_getSt_running (dag.setSt x .running) rest hrun
            constructor
            · intro hlt
              exfalso
              omega
            · intro _
              refine ⟨hfin, List.mem_cons_self _ _, ?_⟩
              show (((x, t) :: (cascade (dag.setSt x .running) rest).2).map (·.1)).count x
                = 1
              rw [List.map_cons, List.count_cons_self]
              have hnm : x ∉ (cascade (dag.setSt x .running) rest).2.map (·.1) := by
                intro hmem
                obtain ⟨q, hq, hq1⟩ := List.mem_map.1 hmem
                obtain ⟨c', hc'⟩ := cascade_outs_pending _ _ q hq
                rw [hq1, Graph.getSt_setSt_self, h] at hc'
                cases hc'
              rw [List.count_eq_zero_of_not_mem hnm]
          · rw [cascade_cons_dec h hc]
            have hpend : (dag.setSt x (.pending (c - 1) t)).getSt x
                = some (.pending (c - 1) t) := by
              rw [Graph.getSt_setSt_self, h]
              rfl
            have ih2 := ih (dag.setSt x (.pending (c - 1) t)) hpend
            constructor
            · intro hlt
              have hlt2 : rest.count x < c - 1 := by omega
              have hres := ih2.1 (Or.inl hlt2)
              have harith : c - 1 - rest.count x = c - (rest.count x + 1) := by omega
              rw [harith] at hres
              exact hres
            · intro hm
              exact ih2.2 ⟨by omega, by omega⟩
        · have hkeep : ∀ st, (dag.setSt i st).getSt x = some (.pending c t) := by
            intro st
            rw [Graph.getSt_setSt_ne _ _ hxi]
            exact h
          rw [List.count_cons_of_ne hxi]
          by_cases hc : c2 - 1 = 0
          · rw [cascade_cons_extract h2 hc]
            have ih2 := ih (dag.setSt i .running) (hkeep _)
            constructor
            · intro hlt
              refine ⟨(ih2.1 hlt).1, ?_⟩
              show x ∉ ((i, t2) :: (cascade (dag.setSt i .running) rest).2).map (·.1)
              rw [List.map_cons]
              intro hmem
              rcases List.mem_cons.1 hmem with h3 | h3
              · exact hxi h3
              · exact (ih2.1 hlt).2 h3
            · intro hm
              have hres := ih2.2 hm
              refine ⟨hres.1, ?_, ?_⟩
              · exact List.mem_cons_of_mem _ hres.2.1
              · show (((i, t2) :: (cascade (dag.setSt i .running) rest).2).map (·.1)).count x
                  = 1
                rw [List.map_cons, List.count_cons_of_ne hxi]
                exact hres.2.2
          · rw [cascade_cons_dec h2 hc]
            exact ih (dag.setSt i (.pending (c2 - 1) t2)) (hkeep _)

/-! ## Graph-invariant elimination and introduction -/

theorem keysOf_removeN_sublist (k : Nat) (l : List (Nat × α)) :
    (keysOf (removeN k l)).Sublist (keysOf l) := by
  induction l with
  | nil => simp [removeN]
  | cons p r ih =>
    obtain ⟨k', v⟩ := p
    rw [removeN]
    by_cases h : k' = k
    · rw [if_pos h]
      exact ih.cons _
    · rw [if_neg h]
      exact ih.cons₂ _

theorem walk_eq_children {g : Graph T} (h : lookupN y g.nodes = some e) :
    g.walk y = e.children := by
  rw [Graph.walk, h]
  rfl

theorem getSt_eq_st {g : Graph T} (h : lookupN y g.nodes = some e) :
    g.getSt y = some e.st := by
  rw [Graph.getSt, h]
  rfl

theorem GInv.nodupKeys {g : Graph T} (hg : GInv g) : (keysOf g.nodes).Nodup := hg.1

theorem GInv.key_lt {g : Graph T} (hg : GInv g) (h : y ∈ keysOf g.nodes) :
    y < g.next := by
  obtain ⟨p, hp, rfl⟩ := List.mem_map.1 h
  exact hg.2.1 p hp

theorem GInv.walk_lt {g : Graph T} (hg : GInv g) (h : c ∈ g.walk y) : c < g.next := by
  rw [Graph.walk] at h
  cases hl : lookupN y g.nodes with
  | none => rw [hl] at h; cases h
  | some e =>
    rw [hl] at h
    exact hg.2.2.1 (y, e) (lookupN_mem hl) c h

theorem GInv.walk_pend {g : Graph T} (hg : GInv g) (h : x ∈ g.walk y) :
    isPendB (g.getSt x) = true := by
  rw [Graph.walk] at h
  cases hl : lookupN y g.nodes with
  | none => rw [hl] at h; cases h
  | some e =>
    rw [hl] at h
    exact hg.2.2.2.2 (y, e) (lookupN_mem hl) x h

theorem GInv.pending_spec {g : Graph T} (hg : GInv g)
    (h : g.getSt y = some (.pending c t)) : c = inEdges g.nodes y ∧ 1 ≤ c := by
  rw [Graph.getSt] at h
  cases hl : lookupN y g.nodes with
  | none => rw [hl] at h; cases h
  | some e =>
    rw [hl] at h
    rw [Option.map_some'] at h
    have he : e.st = .pending c t := Option.some.inj h
    have hok := hg.2.2.2.1 (y, e) (lookupN_mem hl)
    rw [nodeOk] at hok
    dsimp only at hok
    rw [he] at hok
    exact hok

theorem GInv_intro {g : Graph T}
    (h1 : (keysOf g.nodes).Nodup)
    (h2 : ∀ y ∈ keysOf g.nodes, y < g.next)
    (h3 : ∀ y, ∀ c ∈ g.walk y, c < g.next)
    (h4 : ∀ y c t, g.getSt y = some (.pending c t) → c = inEdges g.nodes y ∧ 1 ≤ c)
    (h5 : ∀ y, ∀ x ∈ g.walk y, isPendB (g.getSt x) = true) : GInv g := by
  refine ⟨h1, ?_, ?_, ?_, ?_⟩
  · intro p hp
    exact h2 p.1 (List.mem_map.2 ⟨p, hp, rfl⟩)
  · intro p hp c hc
    have hl : lookupN p.1 g.nodes = some p.2 := mem_lookupN h1 hp
    exact h3 p.1 c (by rw [walk_eq_children hl]; exact hc)
  · intro p hp
    have hl : lookupN p.1 g.nodes = some p.2 := mem_lookupN h1 hp
    rw [nodeOk]
    cases hst : p.2.st with
    | pending c t =>
      exact h4 p.1 c t (by rw [getSt_eq_st hl, hst])
    | running => exact trivial
  · intro p hp x hx
    have hl : lookupN p.1 g.nodes = some p.2 := mem_lookupN h1 hp
    exact h5 p.1 x (by rw [walk_eq_children hl]; exact hx)

theorem count_walk_le_inEdges {g : Graph T} (hg : GInv g)
    (hd : d ∈ keysOf g.nodes) : (g.walk d).count x ≤ inEdges g.nodes x := by
  obtain ⟨e, he⟩ := Option.isSome_iff_exists.1 (lookupN_isSome_iff.2 hd)
  rw [walk_eq_children he, Graph.inEdges_removeN_split hg.nodupKeys he]
  omega

theorem sum_count_walks_le_inEdges {g : Graph T} (hnd : (keysOf g.nodes).Nodup)
    (L : List Nat) (hndL : L.Nodup) (hsub : ∀ d ∈ L, d ∈ keysOf g.nodes) :
    (L.map (fun d => (g.walk d).count x)).sum ≤ inEdges g.nodes x := by
  induction L generalizing g with
  | nil => simp
  | cons d L2 ih =>
    rw [List.map_cons, List.sum_cons]
    obtain ⟨e, he⟩ := Option.isSome_iff_exists.1
      (lookupN_isSome_iff.2 (hsub d (List.mem_cons_self _ _)))
    have hsplit := Graph.inEdges_removeN_split (x := x) hnd he
    rw [List.nodup_cons] at hndL
    have hwd : (g.walk d).count x = e.children.count x := by rw [walk_eq_children he]
    have hrec : (L2.map (fun d2 => (g.walk d2).count x)).sum
        = (L2.map (fun d2 => ((g.remove_node d).walk d2).count x)).sum := by
      congr 1
      refine List.map_congr_left ?_
      intro d2 hd2
      rw [Graph.walk_remove_node_ne _ (fun hh => hndL.1 (by rw [← hh]; exact hd2))]
    have hnd2 : (keysOf (g.remove_node d).nodes).Nodup :=
      hnd.sublist (keysOf_removeN_sublist d g.nodes)
    have hsub2 : ∀ d2 ∈ L2, d2 ∈ keysOf (g.remove_node d).nodes := by
      intro d2 hd2
      exact Graph.mem_keysOf_remove_node.2
        ⟨hsub d2 (List.mem_cons_of_mem _ hd2),
         fun hh => hndL.1 (by rw [← hh]; exact hd2)⟩
    have hih := ih hnd2 hndL.2 hsub2
    have heq : inEdges (g.remove_node d).nodes x = inEdges (removeN d g.nodes) x := rfl
    rw [hrec]
    rw [heq] at hih
    omega

/-! ## Processing one completed identifier -/

theorem oneDone_next (dag : Graph T) (d : Nat) :
    ((cascade dag (dag.walk d)).1.remove_node d).next = dag.next := by
  rw [Graph.next_remove_node, cascade_next]

theorem oneDone_keys {dag : Graph T} (d : Nat) :
    y ∈ keysOf ((cascade dag (dag.walk d)).1.remove_node d).nodes
      ↔ y ∈ keysOf dag.nodes ∧ y ≠ d := by
  rw [Graph.mem_keysOf_remove_node, cascade_keysOf]

theorem oneDone_nodup {dag : Graph T} (hg : (keysOf dag.nodes).Nodup) (d : Nat) :
    (keysOf ((cascade dag (dag.walk d)).1.remove_node d).nodes).Nodup := by
  have h1 : (keysOf (cascade dag (dag.walk d)).1.nodes).Nodup := by
    rw [cascade_keysOf]
    exact hg
  exact h1.sublist (keysOf_removeN_sublist ..)

theorem oneDone_walk {dag : Graph T} (d : Nat) (hyd : y ≠ d) :
    ((cascade dag (dag.walk d)).1.remove_node d).walk y = dag.walk y := by
  rw [Graph.walk_remove_node_ne _ hyd, cascade_walk]

theorem oneDone_walk_self (dag : Graph T) (d : Nat) :
    ((cascade dag (dag.walk d)).1.remove_node d).walk d = [] := by
  rw [Graph.remove_node, Graph.walk, lookupN_removeN_self]
  rfl

theorem oneDone_run {dag : Graph T} (d : Nat) (hyd : y ≠ d)
    (hr : dag.getSt y = some .running) :
    ((cascade dag (dag.walk d)).1.remove_node d).getSt y = some .running := by
  rw [Graph.getSt_remove_node_ne _ hyd]
  exact cascade_getSt_running _ _ hr

theorem oneDone_none {dag : Graph T} (d : Nat) (h : dag.getSt y = none) :
    ((cascade dag (dag.walk d)).1.remove_node d).getSt y = none := by
  by_cases hyd : y = d
  · subst hyd
    exact Graph.getSt_remove_node_self _ _
  · rw [Graph.getSt_remove_node_ne _ hyd]
    exact cascade_getSt_none _ _ h

theorem oneDone_getSt_self (dag : Graph T) (d : Nat) :
    ((cascade dag (dag.walk d)).1.remove_node d).getSt d = none :=
  Graph.getSt_remove_node_self _ _

theorem oneDone_inEdges {dag : Graph T} (hnd : (keysOf dag.nodes).Nodup)
    (hd : d ∈ keysOf dag.nodes) (y : Nat) :
    inEdges dag.nodes y
      = (dag.walk d).count y
        + inEdges ((cascade dag (dag.walk d)).1.remove_node d).nodes y := by
  have hdc : d ∈ keysOf (cascade dag (dag.walk d)).1.nodes := by
    rw [cascade_keysOf]
    exact hd
  obtain ⟨e, he⟩ := Option.isSome_iff_exists.1 (lookupN_isSome_iff.2 hdc)
  have hndc : (keysOf (cascade dag (dag.walk d)).1.nodes).Nodup := by
    rw [cascade_keysOf]
    exact hnd
  have hsplit := Graph.inEdges_removeN_split (x := y) hndc he
  have hwalk : e.children = dag.walk d := by
    rw [← walk_eq_children he, cascade_walk]
  have hce : inEdges (cascade dag (dag.walk d)).1.nodes y = inEdges dag.nodes y :=
    cascade_inEdges ..
  rw [hce] at hsplit
  rw [hsplit, hwalk]
  rfl

theorem oneDone_pending {dag : Graph T} (hg : GInv dag)
    (hd : dag.getSt d = some .running)
    (hy : dag.getSt y = some (.pending cy ty)) :
    (dag.walk d).count y ≤ cy
    ∧ ((dag.walk d).count y < cy →
        ((cascade dag (dag.walk d)).1.remove_node d).getSt y
            = some (.pending (cy - (dag.walk d).count y) ty)
          ∧ y ∉ (cascade dag (dag.walk d)).2.map (·.1))
    ∧ ((dag.walk d).count y = cy →
        ((cascade dag (dag.walk d)).1.remove_node d).getSt y = some .running
          ∧ (y, ty) ∈ (cascade dag (dag.walk d)).2
          ∧ ((cascade dag (dag.walk d)).2.map (·.1)).count y = 1) := by
  have hyd : y ≠ d := by
    intro hh
    rw [hh, hd] at hy
    cases hy
  have hdk : d ∈ keysOf dag.nodes := by
    rw [← Graph.getSt_isSome_iff, hd]
    rfl
  have hcy := hg.pending_spec hy
  have hm : (dag.walk d).count y ≤ cy := by
    rw [hcy.1]
    exact count_walk_le_inEdges hg hdk
  have hcp := cascade_pending dag (dag.walk d) hy
  refine ⟨hm, ?_, ?_⟩
  · intro hlt
    have h1 := hcp.1 (Or.inl hlt)
    exact ⟨by rw [Graph.getSt_remove_node_ne _ hyd]; exact h1.1, h1.2⟩
  · intro heq
    have h1 := hcp.2 ⟨by omega, by omega⟩
    exact ⟨by rw [Graph.getSt_remove_node_ne _ hyd]; exact h1.1, h1.2.1, h1.2.2⟩

theorem oneDone_pending_rev {dag : Graph T} (hg : GInv dag)
    (hd : dag.getSt d = some .running)
    (hy : ((cascade dag (dag.walk d)).1.remove_node d).getSt y
        = some (.pending c t)) :
    ∃ cy, dag.getSt y = some (.pending cy t)
      ∧ (dag.walk d).count y < cy ∧ c = cy - (dag.walk d).count y := by
  cases hpre : dag.getSt y with
  | none => rw [oneDone_none d hpre] at hy; cases hy
  | some st =>
    cases st with
    | running =>
      have hyd : y ≠ d := by
        intro hh
        rw [hh] at hy
        rw [oneDone_getSt_self] at hy
        cases hy
      rw [oneDone_run d hyd hpre] at hy
      cases hy
    | pending cy ty =>
      have hod := oneDone_pending hg hd hpre
      rcases Nat.lt_or_ge ((dag.walk d).count y) cy with hlt | hge
      · have h1 := (hod.2.1 hlt).1
        have hinj := Option.some.inj (h1.symm.trans hy)
        cases hinj
        exact ⟨cy, rfl, hlt, rfl⟩
      · have heq : (dag.walk d).count y = cy := le_antisymm hod.1 hge
        rw [(hod.2.2 heq).1] at hy
        cases hy

theorem mem_walk_mem_keys {g : Graph T} (h : x ∈ g.walk y) : y ∈ keysOf g.nodes := by
  rw [Graph.walk] at h
  cases hl : lookupN y g.nodes with
  | none => rw [hl] at h; cases h
  | some e => exact lookupN_isSome_iff.1 (by rw [hl]; rfl)

theorem isPendB_iff {o : Option (State T)} :
    isPendB o = true ↔ ∃ c t, o = some (.pending c t) := by
  cases o with
  | none => simp [isPendB]
  | some st =>
    cases st with
    | pending c t => simp [isPendB]
    | running => simp [isPendB]

theorem isRunB_iff {o : Option (State T)} :
    isRunB o = true ↔ o = some .running := by
  cases o with
  | none => simp [isRunB]
  | some st =>
    cases st with
    | pending c t => simp [isRunB]
    | running => simp [isRunB]

theorem oneDone_extracted_running {dag : Graph T} (hg : GInv dag)
    (hd : dag.getSt d = some .running) :
    ∀ p ∈ (cascade dag (dag.walk d)).2,
      ((cascade dag (dag.walk d)).1.remove_node d).getSt p.1 = some .running := by
  intro p hp
  obtain ⟨cp, hpre⟩ := cascade_outs_pending dag (dag.walk d) p hp
  have hod := oneDone_pending hg hd hpre
  rcases Nat.lt_or_ge ((dag.walk d).count p.1) cp with hlt | hge
  · exact absurd (List.mem_map.2 ⟨p, hp, rfl⟩) (hod.2.1 hlt).2
  · exact ((hod.2.2 (le_antisymm hod.1 hge)).1)

theorem oneDone_GInv {dag : Graph T} (hg : GInv dag)
    (hd : dag.getSt d = some .running) :
    GInv ((cascade dag (dag.walk d)).1.remove_node d) := by
  have hdk : d ∈ keysOf dag.nodes := by
    rw [← Graph.getSt_isSome_iff, hd]
    rfl
  refine GInv_intro (oneDone_nodup hg.nodupKeys d) ?_ ?_ ?_ ?_
  · intro y hy
    rw [oneDone_next]
    exact hg.key_lt (oneDone_keys d |>.1 hy).1
  · intro y c hc
    rw [oneDone_next]
    by_cases hyd : y = d
    · rw [hyd, oneDone_walk_self] at hc
      cases hc
    · rw [oneDone_walk d hyd] at hc
      exact hg.walk_lt hc
  · intro y c t hy
    obtain ⟨cy, hpre, hlt, hc⟩ := oneDone_pending_rev hg hd hy
    have hie := oneDone_inEdges hg.nodupKeys hdk y
    have hcy := hg.pending_spec hpre
    constructor
    · omega
    · omega
  · intro y x hx
    by_cases hyd : y = d
    · rw [hyd, oneDone_walk_self] at hx
      cases hx
    · rw [oneDone_walk d hyd] at hx
      obtain ⟨cx, tx, hx'⟩ := isPendB_iff.1 (hg.walk_pend hx)
      have hyk : y ∈ keysOf dag.nodes := mem_walk_mem_keys hx
      have hcx := hg.pending_spec hx'
      have hsum := sum_count_walks_le_inEdges (x := x) hg.nodupKeys [d, y]
        (by simp [hyd, Ne.symm hyd]) (by
          intro q hq
          rcases List.mem_cons.1 hq with rfl | hq2
          · exact hdk
          · rcases List.mem_cons.1 hq2 with rfl | hq3
            · exact hyk
            · cases hq3)
      rw [List.map_cons, List.map_cons, List.map_nil, List.sum_cons, List.sum_cons,
        List.sum_nil] at hsum
      have hxy : 0 < (dag.walk y).count x := List.count_pos_iff.2 hx
      have hlt : (dag.walk d).count x < cx := by omega
      rw [isPendB_iff]
      exact ⟨cx - (dag.walk d).count x, tx,
        ((oneDone_pending hg hd hx').2.1 hlt).1⟩

/-! ## The `done`-processing loop of `enqueue` -/

theorem processDone_cons (dag : Graph T) (q : List (Nat × T)) (d : Nat)
    (L2 : List Nat) :
    processDone dag q (d :: L2)
      = processDone ((cascade dag (dag.walk d)).1.remove_node d)
          (q ++ (cascade dag (dag.walk d)).2) L2 := by
  rw [processDone]

theorem done_sum_le {dag : Graph T} {L : List Nat} (hg : GInv dag) (hL : L.Nodup)
    (hR : ∀ d ∈ L, dag.getSt d = some .running)
    (hy : dag.getSt y = some (.pending cy ty)) :
    (L.map (fun d => (dag.walk d).count y)).sum ≤ cy := by
  have hb := sum_count_walks_le_inEdges (x := y) hg.nodupKeys L hL
    (fun d hd => by rw [← Graph.getSt_isSome_iff, hR d hd]; rfl)
  have := (hg.pending_spec hy).1
  omega

theorem processDone_spec {dag : Graph T} (L : List Nat) (q : List (Nat × T))
    (hg : GInv dag) (hL : L.Nodup)
    (hR : ∀ d ∈ L, dag.getSt d = some .running) :
    GInv (processDone dag q L).1
    ∧ (processDone dag q L).1.next = dag.next
    ∧ (∀ y, y ∈ keysOf (processDone dag q L).1.nodes
        ↔ y ∈ keysOf dag.nodes ∧ y ∉ L)
    ∧ (∀ y, y ∉ L → (processDone dag q L).1.walk y = dag.walk y)
    ∧ (∀ y, y ∉ L → dag.getSt y = some .running →
        (processDone dag q L).1.getSt y = some .running)
    ∧ (∀ y, dag.getSt y = none → (processDone dag q L).1.getSt y = none)
    ∧ (∀ p ∈ q, p ∈ (processDone dag q L).2)
    ∧ (∀ p ∈ (processDone dag q L).2,
        p ∈ q ∨ ∃ c', dag.getSt p.1 = some (.pending c' p.2))
    ∧ (∀ y cy ty, dag.getSt y = some (.pending cy ty) →
        ((L.map (fun d => (dag.walk d).count y)).sum < cy →
            (processDone dag q L).1.getSt y
                = some (.pending (cy - (L.map (fun d => (dag.walk d).count y)).sum) ty)
            ∧ (∀ v, (y, v) ∈ (processDone dag q L).2 → (y, v) ∈ q))
        ∧ ((L.map (fun d => (dag.walk d).count y)).sum = cy →
            (processDone dag q L).1.getSt y = some .running
            ∧ (y, ty) ∈ (processDone dag q L).2)) := by
  induction L generalizing dag q with
  | nil =>
    refine ⟨hg, rfl, by simp [processDone], by simp [processDone],
      by simp [processDone], ?_, by simp [processDone], ?_, ?_⟩
    · intro y h
      simpa [processDone] using h
    · intro p hp
      exact Or.inl (by simpa [processDone] using hp)
    · intro y cy ty hy
      refine ⟨?_, ?_⟩
      · intro hlt
        simp only [List.map_nil, List.sum_nil] at hlt ⊢
        refine ⟨by simpa [processDone] using hy, ?_⟩
        intro v hv
        simpa [processDone] using hv
      · intro heq
        simp only [List.map_nil, List.sum_nil] at heq
        have := (hg.pending_spec hy).2
        omega
  | cons d L2 ih =>
    rw [List.nodup_cons] at hL
    have hdr : dag.getSt d = some .running := hR d (List.mem_cons_self _ _)
    have hgD : GInv ((cascade dag (dag.walk d)).1.remove_node d) :=
      oneDone_GInv hg hdr
    have hRD : ∀ d2 ∈ L2,
        ((cascade dag (dag.walk d)).1.remove_node d).getSt d2 = some .running := by
      intro d2 hd2
      exact oneDone_run d (fun hh => hL.1 (by rw [← hh]; exact hd2))
        (hR d2 (List.mem_cons_of_mem _ hd2))
    obtain ⟨ih1, ih2, ih3, ih4, ih5, ih6, ih7, ih8, ih9⟩ :=
      ih (q := q ++ (cascade dag (dag.walk d)).2) hgD hL.2 hRD
    rw [processDone_cons]
    have hwalkL2 : ∀ d2 ∈ L2,
        ((cascade dag (dag.walk d)).1.remove_node d).walk d2 = dag.walk d2 := by
      intro d2 hd2
      exact oneDone_walk d (fun hh => hL.1 (by rw [← hh]; exact hd2))
    refine ⟨ih1, ih2.trans (oneDone_next dag d), ?_, ?_, ?_, ?_, ?_, ?_, ?_⟩
    · intro y
      rw [ih3 y, oneDone_keys]
      simp only [List.mem_cons]
      tauto
    · intro y hy
      simp only [List.mem_cons, not_or] at hy
      rw [ih4 y hy.2, oneDone_walk d hy.1]
    · intro y hy hrun
      simp only [List.mem_cons, not_or] at hy
      exact ih5 y hy.2 (oneDone_run d hy.1 hrun)
    · intro y hnone
      exact ih6 y (oneDone_none d hnone)
    · intro p hp
      exact ih7 p (List.mem_append_left _ hp)
    · intro p hp
      rcases ih8 p hp with hq | ⟨c', hc'⟩
      · rcases List.mem_append.1 hq with hq2 | hq2
        · exact Or.inl hq2
        · obtain ⟨cp, hcp⟩ := cascade_outs_pending dag (dag.walk d) p hq2
          exact Or.inr ⟨cp, hcp⟩
      · obtain ⟨cy, hpre, _, _⟩ := oneDone_pending_rev hg hdr hc'
        exact Or.inr ⟨cy, hpre⟩
    · intro y cy ty hy
      have hyL2 : y ∉ L2 := by
        intro hmem
        rw [hR y (List.mem_cons_of_mem _ hmem)] at hy
        cases hy
      have hsum_congr : L2.map (fun d2 =>
            (((cascade dag (dag.walk d)).1.remove_node d).walk d2).count y)
          = L2.map (fun d2 => (dag.walk d2).count y) := by
        refine List.map_congr_left ?_
        intro d2 hd2
        rw [hwalkL2 d2 hd2]
      have hcons : ((d :: L2).map (fun d2 => (dag.walk d2).count y)).sum
          = (dag.walk d).count y
            + (L2.map (fun d2 => (dag.walk d2).count y)).sum := by
        rw [List.map_cons, List.sum_cons]
      have hod := oneDone_pending hg hdr hy
      have htot := done_sum_le (L := d :: L2) hg (List.nodup_cons.2 hL) hR hy
      rw [hcons] at htot
      rcases Nat.lt_or_ge ((dag.walk d).count y) cy with hmd | hmd
      · -- y survives the first parent with a strictly positive remaining count
        have hD := (hod.2.1 hmd).1
        have hnotq := (hod.2.1 hmd).2
        have hih := ih9 y (cy - (dag.walk d).count y) ty hD
        rw [hsum_congr] at hih
        constructor
        · intro hlt
          rw [hcons] at hlt
          have h1 := hih.1 (by omega)
          refine ⟨?_, ?_⟩
          · rw [hcons]
            have harith : cy - (dag.walk d).count y
                  - (L2.map (fun d2 => (dag.walk d2).count y)).sum
                = cy - ((dag.walk d).count y
                    + (L2.map (fun d2 => (dag.walk d2).count y)).sum) := by
              omega
            rw [← harith]
            exact h1.1
          · intro v hv
            rcases List.mem_append.1 (h1.2 v hv) with hq2 | hq2
            · exact hq2
            · exact absurd (List.mem_map.2 ⟨(y, v), hq2, rfl⟩) hnotq
        · intro heq
          rw [hcons] at heq
          have h2 := hih.2 (by omega)
          exact ⟨h2.1, h2.2⟩
      · -- the first parent's edges alone exhaust the count: y was extracted
        have hmd2 : (dag.walk d).count y = cy := le_antisymm hod.1 hmd
        have hrest0 : (L2.map (fun d2 => (dag.walk d2).count y)).sum = 0 := by
          omega
        have hrun := (hod.2.2 hmd2).1
        have hmem := (hod.2.2 hmd2).2.1
        constructor
        · intro hlt
          rw [hcons] at hlt
          omega
        · intro _
          refine ⟨ih5 y hyL2 hrun, ?_⟩
          exact ih7 _ (List.mem_append_right _ hmem)

theorem keysOf_append (l1 l2 : List (Nat × α)) :
    keysOf (l1 ++ l2) = keysOf l1 ++ keysOf l2 := List.map_append ..

theorem processDone_queue_ids {dag : Graph T} (L : List Nat) (q : List (Nat × T))
    (hg : GInv dag) (hL : L.Nodup)
    (hR : ∀ d ∈ L, dag.getSt d = some .running)
    (hq1 : (keysOf q).Nodup)
    (hq2 : ∀ i ∈ keysOf q, dag.getSt i = some .running)
    (hq3 : ∀ i ∈ keysOf q, i ∉ L) :
    (keysOf (processDone dag q L).2).Nodup
    ∧ (∀ i ∈ keysOf (processDone dag q L).2,
        (processDone dag q L).1.getSt i = some .running) := by
  induction L generalizing dag q with
  | nil =>
    refine ⟨by simpa [processDone] using hq1, ?_⟩
    intro i hi
    exact hq2 i (by simpa [processDone] using hi)
  | cons d L2 ih =>
    rw [List.nodup_cons] at hL
    have hdr : dag.getSt d = some .running := hR d (List.mem_cons_self _ _)
    have hgD : GInv ((cascade dag (dag.walk d)).1.remove_node d) :=
      oneDone_GInv hg hdr
    have hRD : ∀ d2 ∈ L2,
        ((cascade dag (dag.walk d)).1.remove_node d).getSt d2 = some .running := by
      intro d2 hd2
      exact oneDone_run d (fun hh => hL.1 (by rw [← hh]; exact hd2))
        (hR d2 (List.mem_cons_of_mem _ hd2))
    have hEpend : ∀ i ∈ keysOf (cascade dag (dag.walk d)).2,
        ∃ c' t', dag.getSt i = some (.pending c' t') := by
      intro i hi
      obtain ⟨p, hp, rfl⟩ := List.mem_map.1 hi
      obtain ⟨c', hc'⟩ := cascade_outs_pending dag (dag.walk d) p hp
      exact ⟨c', p.2, hc'⟩
    have hq1' : (keysOf (q ++ (cascade dag (dag.walk d)).2)).Nodup := by
      rw [keysOf_append, List.nodup_append]
      refine ⟨hq1, cascade_outIds_nodup .., ?_⟩
      intro i hiq hiE
      obtain ⟨c', t', hc'⟩ := hEpend i hiE
      rw [hq2 i hiq] at hc'
      cases hc'
    have hq2' : ∀ i ∈ keysOf (q ++ (cascade dag (dag.walk d)).2),
        ((cascade dag (dag.walk d)).1.remove_node d).getSt i = some .running := by
      intro i hi
      rw [keysOf_append, List.mem_append] at hi
      rcases hi with hiq | hiE
      · exact oneDone_run d (fun hh => hq3 i hiq (hh ▸ List.mem_cons_self _ _))
          (hq2 i hiq)
      · obtain ⟨p, hp, rfl⟩ := List.mem_map.1 hiE
        exact oneDone_extracted_running hg hdr p hp
    have hq3' : ∀ i ∈ keysOf (q ++ (cascade dag (dag.walk d)).2), i ∉ L2 := by
      intro i hi
      rw [keysOf_append, List.mem_append] at hi
      rcases hi with hiq | hiE
      · intro hmem
        exact hq3 i hiq (List.mem_cons_of_mem _ hmem)
      · obtain ⟨c', t', hc'⟩ := hEpend i hiE
        intro hmem
        rw [hR i (List.mem_cons_of_mem _ hmem)] at hc'
        cases hc'
    rw [processDone_cons]
    exact ih (q ++ (cascade dag (dag.walk d)).2) hgD hL.2 hRD hq1' hq2' hq3'

/-! ## `add_node` and `eraseIdx` helpers -/

namespace Graph

theorem add_node_fst (g : Graph T) (st : State T) : (g.add_node st).1 = g.next := rfl

theorem next_add_node (g : Graph T) (st : State T) :
    (g.add_node st).2.next = g.next + 1 := rfl

theorem keysOf_add_node (g : Graph T) (st : State T) :
    keysOf (g.add_node st).2.nodes = g.next :: keysOf g.nodes := rfl

theorem getSt_add_node_self (g : Graph T) (st : State T) :
    (g.add_node st).2.getSt g.next = some st := by
  show (lookupN g.next ((g.next, ⟨st, []⟩) :: g.nodes)).map (·.st) = some st
  rw [lookupN, if_pos rfl]
  rfl

theorem getSt_add_node_ne (g : Graph T) (st : State T) (h : y ≠ g.next) :
    (g.add_node st).2.getSt y = g.getSt y := by
  show (lookupN y ((g.next, ⟨st, []⟩) :: g.nodes)).map (·.st) = _
  rw [lookupN, if_neg (fun hh => h hh.symm)]
  rfl

theorem walk_add_node_self (g : Graph T) (st : State T) :
    (g.add_node st).2.walk g.next = [] := by
  show ((lookupN g.next ((g.next, ⟨st, []⟩) :: g.nodes)).map (·.children)).getD [] = []
  rw [lookupN, if_pos rfl]
  rfl

theorem walk_add_node_ne (g : Graph T) (st : State T) (h : y ≠ g.next) :
    (g.add_node st).2.walk y = g.walk y := by
  show ((lookupN y ((g.next, ⟨st, []⟩) :: g.nodes)).map (·.children)).getD [] = _
  rw [lookupN, if_neg (fun hh => h hh.symm)]
  rfl

theorem inEdges_add_node (g : Graph T) (st : State T) (x : Nat) :
    inEdges (g.add_node st).2.nodes x = inEdges g.nodes x := by
  show inEdges ((g.next, ⟨st, []⟩) :: g.nodes) x = inEdges g.nodes x
  rw [inEdges, List.map_cons, List.sum_cons]
  dsimp only
  rw [List.count_nil]
  exact Nat.zero_add _

theorem contains_add_node_ne (g : Graph T) (st : State T) (h : y ≠ g.next) :
    (g.add_node st).2.contains y = g.contains y := by
  show (lookupN y ((g.next, ⟨st, []⟩) :: g.nodes)).isSome = _
  rw [lookupN, if_neg (fun hh => h hh.symm)]
  rfl

end Graph

theorem inEdges_fresh_zero {g : Graph T}
    (hb : ∀ p ∈ g.nodes, ∀ c ∈ p.2.children, c < g.next) (hx : g.next ≤ x) :
    inEdges g.nodes x = 0 := by
  rw [inEdges]
  rw [List.sum_eq_zero]
  intro n hn
  obtain ⟨p, hp, rfl⟩ := List.mem_map.1 hn
  rw [List.count_eq_zero_of_not_mem]
  intro hmem
  exact absurd (hb p hp x hmem) (by omega)

theorem keysOf_eraseIdx (l : List (Nat × α)) (k : Nat) :
    keysOf (l.eraseIdx k) = (keysOf l).eraseIdx k := by
  induction l generalizing k with
  | nil => rfl
  | cons p r ih =>
    cases k with
    | zero => rfl
    | succ k2 =>
      show keysOf (p :: r.eraseIdx k2) = p.1 :: (keysOf r).eraseIdx k2
      rw [keysOf, List.map_cons, ← ih]
      rfl

theorem nodup_not_mem_eraseIdx {L : List Nat} (hnd : L.Nodup)
    (h : L[k]? = some i) : i ∉ L.eraseIdx k := by
  induction L generalizing k with
  | nil => simp at h
  | cons a r ih =>
    rw [List.nodup_cons] at hnd
    cases k with
    | zero =>
      rw [List.getElem?_cons_zero] at h
      cases h
      rw [List.eraseIdx_cons_zero]
      exact hnd.1
    | succ k2 =>
      rw [List.getElem?_cons_succ] at h
      rw [List.eraseIdx_cons_succ]
      intro hmem
      rcases List.mem_cons.1 hmem with rfl | hmem2
      · exact hnd.1 (List.getElem?_mem h)
      · exact ih hnd.2 h hmem2

/-! ## Invariant preservation -/

theorem enqueue_false (s : ExecSt T) : enqueue false s = s := rfl

theorem enqueue_true (s : ExecSt T) :
    enqueue true s
      = { s with
          graph := { dag := (processDone s.graph.dag (s.queue ++ s.graph.pending)
                        s.done).1,
                     pending := [] },
          queue := (processDone s.graph.dag (s.queue ++ s.graph.pending) s.done).2,
          done := [] } := rfl

theorem enqueue_Inv {s : ExecSt T} (hs : Inv s) (lockOk : Bool) :
    Inv (enqueue lockOk s) := by
  obtain ⟨hg, hpn, hqn, hdn, hpr, hqr, hdr, hpd, hqd⟩ := hs
  cases lockOk with
  | false =>
    rw [enqueue_false]
    exact ⟨hg, hpn, hqn, hdn, hpr, hqr, hdr, hpd, hqd⟩
  | true =>
    rw [enqueue_true]
    have hq1 : (keysOf (s.queue ++ s.graph.pending)).Nodup := by
      rw [keysOf_append, List.nodup_append]
      refine ⟨hqn, hpn, ?_⟩
      intro i hiq hip
      exact (hpd i hip).1 hiq
    have hq2 : ∀ i ∈ keysOf (s.queue ++ s.graph.pending),
        s.graph.dag.getSt i = some .running := by
      intro i hi
      rcases List.mem_append.1 (by rw [← keysOf_append]; exact hi) with h | h
      · exact hqr i h
      · exact hpr i h
    have hq3 : ∀ i ∈ keysOf (s.queue ++ s.graph.pending), i ∉ s.done := by
      intro i hi
      rcases List.mem_append.1 (by rw [← keysOf_append]; exact hi) with h | h
      · exact hqd i h
      · exact (hpd i h).2
    obtain ⟨hsp1, _, _, _, _, _, _, _, _⟩ :=
      processDone_spec s.done (s.queue ++ s.graph.pending) hg hdn hdr
    obtain ⟨hqid1, hqid2⟩ :=
      processDone_queue_ids s.done (s.queue ++ s.graph.pending) hg hdn hdr hq1 hq2 hq3
    exact ⟨hsp1, List.nodup_nil, hqid1, List.nodup_nil,
      fun i hi => absurd hi (by simp [keysOf]),
      hqid2,
      fun i hi => absurd hi (List.not_mem_nil i),
      fun i hi => absurd hi (by simp [keysOf]),
      fun i hi hmem => absurd hmem (List.not_mem_nil i)⟩

theorem addTask_false (g : TaskGraph T) (deps : List Nat) (task : T) :
    AddTask.add_task false g deps task = (.notReady, g) := rfl

theorem addTask_true_zero {g : TaskGraph T} {deps : List Nat} (task : T)
    (h : (deps.filter (fun i => g.dag.contains i)).length = 0) :
    AddTask.add_task true g deps task
      = (.ready g.dag.next,
         { dag := (g.dag.add_node .running).2,
           pending := g.pending ++ [(g.dag.next, task)] }) := by
  simp only [AddTask.add_task, if_true, if_pos h]
  rfl

theorem addTask_true_pos {g : TaskGraph T} {deps : List Nat} (task : T)
    (h : ¬ (deps.filter (fun i => g.dag.contains i)).length = 0) :
    AddTask.add_task true g deps task
      = (.ready g.dag.next,
         { dag := deps.foldl (fun d parent => d.add_edge parent g.dag.next)
             (g.dag.add_node
               (.pending (deps.filter (fun i => g.dag.contains i)).length task)).2,
           pending := g.pending }) := by
  simp only [AddTask.add_task, if_true, if_neg h]
  rfl

theorem mem_keys_of_pendB {g : Graph T} (h : isPendB (g.getSt x) = true) :
    x ∈ keysOf g.nodes := by
  obtain ⟨c, t, hct⟩ := isPendB_iff.1 h
  rw [← Graph.getSt_isSome_iff, hct]
  rfl

theorem mem_keys_of_run {g : Graph T} (h : g.getSt x = some .running) :
    x ∈ keysOf g.nodes := by
  rw [← Graph.getSt_isSome_iff, h]
  rfl

theorem add_node_run_GInv {g : Graph T} (hg : GInv g) :
    GInv (g.add_node .running).2 := by
  refine GInv_intro ?_ ?_ ?_ ?_ ?_
  · rw [Graph.keysOf_add_node, List.nodup_cons]
    exact ⟨fun hm => absurd (hg.key_lt hm) (by omega), hg.nodupKeys⟩
  · intro y hy
    rw [Graph.keysOf_add_node, List.mem_cons] at hy
    rw [Graph.next_add_node]
    rcases hy with rfl | hy
    · omega
    · have := hg.key_lt hy
      omega
  · intro y c hc
    rw [Graph.next_add_node]
    by_cases hyn : y = g.next
    · rw [hyn, Graph.walk_add_node_self] at hc
      cases hc
    · rw [Graph.walk_add_node_ne _ _ hyn] at hc
      have := hg.walk_lt hc
      omega
  · intro y c t hy
    by_cases hyn : y = g.next
    · rw [hyn, Graph.getSt_add_node_self] at hy
      cases hy
    · rw [Graph.getSt_add_node_ne _ _ hyn] at hy
      rw [Graph.inEdges_add_node]
      exact hg.pending_spec hy
  · intro y x hx
    by_cases hyn : y = g.next
    · rw [hyn, Graph.walk_add_node_self] at hx
      cases hx
    · rw [Graph.walk_add_node_ne _ _ hyn] at hx
      have hp := hg.walk_pend hx
      have hxk : x ∈ keysOf g.nodes := mem_keys_of_pendB hp
      have hxn : x ≠ g.next := fun hh => absurd (hg.key_lt (hh ▸ hxk)) (by omega)
      rw [Graph.getSt_add_node_ne _ _ hxn]
      exact hp

theorem add_task_pos_GInv {g : Graph T} (hg : GInv g) {deps : List Nat}
    (hw : ∀ d ∈ deps, d < g.next) (task : T)
    (hpos : ¬ (deps.filter (fun i => g.contains i)).length = 0) :
    GInv (deps.foldl (fun d parent => d.add_edge parent g.next)
      (g.add_node
        (.pending (deps.filter (fun i => g.contains i)).length task)).2) := by
  have hfc : deps.filter (fun i => (g.add_node
        (.pending (deps.filter (fun i => g.contains i)).length task)).2.contains i)
      = deps.filter (fun i => g.contains i) := by
    refine List.filter_congr ?_
    intro p hp
    rw [Graph.contains_add_node_ne _ _ (fun hh => absurd (hw p hp) (by omega))]
  have hcnt0 : deps.count g.next = 0 := by
    rw [List.count_eq_zero_of_not_mem]
    intro hmem
    exact absurd (hw _ hmem) (by omega)
  refine GInv_intro ?_ ?_ ?_ ?_ ?_
  · rw [Graph.foldl_add_edge_keysOf, Graph.keysOf_add_node, List.nodup_cons]
    exact ⟨fun hm => absurd (hg.key_lt hm) (by omega), hg.nodupKeys⟩
  · intro y hy
    rw [Graph.foldl_add_edge_keysOf, Graph.keysOf_add_node, List.mem_cons] at hy
    rw [Graph.foldl_add_edge_next, Graph.next_add_node]
    rcases hy with rfl | hy
    · omega
    · have := hg.key_lt hy
      omega
  · intro y c hc
    rw [Graph.foldl_add_edge_next, Graph.next_add_node]
    rw [Graph.foldl_add_edge_walk] at hc
    rcases List.mem_append.1 hc with hc2 | hc2
    · by_cases hyn : y = g.next
      · rw [hyn, Graph.walk_add_node_self] at hc2
        cases hc2
      · rw [Graph.walk_add_node_ne _ _ hyn] at hc2
        have := hg.walk_lt hc2
        omega
    · have := List.eq_of_mem_replicate hc2
      omega
  · intro y c t hy
    rw [Graph.foldl_add_edge_getSt] at hy
    rw [Graph.foldl_add_edge_inEdges, Graph.inEdges_add_node, hfc]
    by_cases hyn : y = g.next
    · rw [hyn, Graph.getSt_add_node_self] at hy
      have hinj := Option.some.inj hy
      cases hinj
      rw [if_pos hyn, hyn,
        inEdges_fresh_zero (fun p hp c2 hc2 => hg.2.2.1 p hp c2 hc2) (le_refl _)]
      omega
    · rw [Graph.getSt_add_node_ne _ _ hyn] at hy
      rw [if_neg hyn]
      have := hg.pending_spec hy
      omega
  · intro y x hx
    rw [Graph.foldl_add_edge_walk] at hx
    rw [Graph.foldl_add_edge_getSt]
    rcases List.mem_append.1 hx with hc2 | hc2
    · by_cases hyn : y = g.next
      · rw [hyn, Graph.walk_add_node_self] at hc2
        cases hc2
      · rw [Graph.walk_add_node_ne _ _ hyn] at hc2
        have hp := hg.walk_pend hc2
        have hxk : x ∈ keysOf g.nodes := mem_keys_of_pendB hp
        have hxn : x ≠ g.next := fun hh => absurd (hg.key_lt (hh ▸ hxk)) (by omega)
        rw [Graph.getSt_add_node_ne _ _ hxn]
        exact hp
    · have hxeq := List.eq_of_mem_replicate hc2
      subst hxeq
      rw [Graph.getSt_add_node_self]
      rfl

theorem pollStep_cancelled {V E : Type} {s : ExecSt T} (env : Env V E)
    (h : s.cancelled = true) :
    pollStep env s = (s, .ended) := by
  rw [pollStep, if_pos h]

theorem pollStep_silent {V E : Type} {s : ExecSt T} (h : s.cancelled = false)
    (lockOk : Bool) :
    pollStep (⟨lockOk, .silent⟩ : Env V E) s = (enqueue lockOk s, .notReady) := by
  rw [pollStep, if_neg (by rw [h]; exact Bool.false_ne_true)]

theorem pollStep_ok {V E : Type} {s : ExecSt T} (h : s.cancelled = false)
    (lockOk : Bool) (k : Nat) (v : V)
    (hk : (enqueue lockOk s).queue[k]? = some (i, t)) :
    pollStep (⟨lockOk, QRes.ok k v⟩ : Env V E) s
      = ({ enqueue lockOk s with
            queue := (enqueue lockOk s).queue.eraseIdx k,
            done := (enqueue lockOk s).done ++ [i] }, .item i v) := by
  rw [pollStep, if_neg (by rw [h]; exact Bool.false_ne_true)]
  simp only [hk]

theorem pollStep_ok_bad {V E : Type} {s : ExecSt T} (h : s.cancelled = false)
    (lockOk : Bool) (k : Nat) (v : V)
    (hk : (enqueue lockOk s).queue[k]? = none) :
    pollStep (⟨lockOk, QRes.ok k v⟩ : Env V E) s = (enqueue lockOk s, .notReady) := by
  rw [pollStep, if_neg (by rw [h]; exact Bool.false_ne_true)]
  simp only [hk]

theorem pollStep_err {V E : Type} {s : ExecSt T} (h : s.cancelled = false)
    (lockOk : Bool) (k : Nat) (e : E) (p : Nat × T)
    (hk : (enqueue lockOk s).queue[k]? = some p) :
    pollStep (⟨lockOk, QRes.err k e⟩ : Env V E) s
      = ({ enqueue lockOk s with
            queue := (enqueue lockOk s).queue.eraseIdx k }, .error e) := by
  rw [pollStep, if_neg (by rw [h]; exact Bool.false_ne_true)]
  simp only [hk]

theorem pollStep_err_bad {V E : Type} {s : ExecSt T} (h : s.cancelled = false)
    (lockOk : Bool) (k : Nat) (e : E)
    (hk : (enqueue lockOk s).queue[k]? = none) :
    pollStep (⟨lockOk, QRes.err k e⟩ : Env V E) s = (enqueue lockOk s, .notReady) := by
  rw [pollStep, if_neg (by rw [h]; exact Bool.false_ne_true)]
  simp only [hk]

theorem addStep_Inv {s : ExecSt T} (hs : Inv s) (lockOk : Bool)
    {deps : List Nat} (hw : ∀ d ∈ deps, d < s.graph.dag.next) (task : T) :
    Inv { s with graph := (AddTask.add_task lockOk s.graph deps task).2 } := by
  obtain ⟨hg, hpn, hqn, hdn, hpr, hqr, hdr, hpd, hqd⟩ := hs
  cases lockOk with
  | false =>
    rw [addTask_false]
    exact ⟨hg, hpn, hqn, hdn, hpr, hqr, hdr, hpd, hqd⟩
  | true =>
    by_cases hc : (deps.filter (fun i => s.graph.dag.contains i)).length = 0
    · rw [addTask_true_zero task hc]
      have hpres : ∀ y, y ∈ keysOf s.graph.dag.nodes →
          (s.graph.dag.add_node State.running).2.getSt y = s.graph.dag.getSt y := by
        intro y hy
        exact Graph.getSt_add_node_ne _ _
          (fun hh => absurd (hg.key_lt (hh ▸ hy)) (by omega))
      refine ⟨add_node_run_GInv hg, ?_, hqn, hdn, ?_, ?_, ?_, ?_, hqd⟩
      · rw [keysOf_append, List.nodup_append]
        refine ⟨hpn, by simp [keysOf], ?_⟩
        intro i hip hin
        simp only [keysOf, List.map_cons, List.map_nil, List.mem_cons,
          List.not_mem_nil, or_false] at hin
        have := hg.key_lt (mem_keys_of_run (hpr i hip))
        omega
      · intro i hi
        rw [keysOf_append, List.mem_append] at hi
        rcases hi with hi | hi
        · rw [hpres i (mem_keys_of_run (hpr i hi))]
          exact hpr i hi
        · simp only [keysOf, List.map_cons, List.map_nil, List.mem_cons,
            List.not_mem_nil, or_false] at hi
          subst hi
          exact Graph.getSt_add_node_self _ _
      · intro i hi
        rw [hpres i (mem_keys_of_run (hqr i hi))]
        exact hqr i hi
      · intro i hi
        rw [hpres i (mem_keys_of_run (hdr i hi))]
        exact hdr i hi
      · intro i hi
        rw [keysOf_append, List.mem_append] at hi
        rcases hi with hi | hi
        · exact hpd i hi
        · simp only [keysOf, List.map_cons, List.map_nil, List.mem_cons,
            List.not_mem_nil, or_false] at hi
          subst hi
          constructor
          · intro hmem
            exact absurd (hg.key_lt (mem_keys_of_run (hqr _ hmem))) (by omega)
          · intro hmem
            exact absurd (hg.key_lt (mem_keys_of_run (hdr _ hmem))) (by omega)
    · rw [addTask_true_pos task hc]
      have hpres : ∀ y, y ∈ keysOf s.graph.dag.nodes →
          (deps.foldl (fun d parent => d.add_edge parent s.graph.dag.next)
            (s.graph.dag.add_node
              (.pending (deps.filter (fun i => s.graph.dag.contains i)).length
                task)).2).getSt y
            = s.graph.dag.getSt y := by
        intro y hy
        rw [Graph.foldl_add_edge_getSt, Graph.getSt_add_node_ne _ _
          (fun hh => absurd (hg.key_lt (hh ▸ hy)) (by omega))]
      refine ⟨add_task_pos_GInv hg hw task hc, hpn, hqn, hdn, ?_, ?_, ?_, hpd, hqd⟩
      · intro i hi
        rw [hpres i (mem_keys_of_run (hpr i hi))]
        exact hpr i hi
      · intro i hi
        rw [hpres i (mem_keys_of_run (hqr i hi))]
        exact hqr i hi
      · intro i hi
        rw [hpres i (mem_keys_of_run (hdr i hi))]
        exact hdr i hi

theorem pollStep_Inv {V E : Type} {s : ExecSt T} (hs : Inv s) (env : Env V E) :
    Inv (pollStep env s).1 := by
  cases hcan : s.cancelled with
  | true =>
    rw [pollStep_cancelled env hcan]
    exact hs
  | false =>
    have hs' : Inv (enqueue env.lockOk s) := enqueue_Inv hs env.lockOk
    obtain ⟨lockOk, qres⟩ := env
    cases qres with
    | silent =>
      rw [pollStep_silent hcan lockOk]
      exact hs'
    | ok k v =>
      cases hk : (enqueue lockOk s).queue[k]? with
      | none =>
        rw [pollStep_ok_bad hcan lockOk k v hk]
        exact hs'
      | some p =>
        obtain ⟨i, t⟩ := p
        rw [pollStep_ok hcan lockOk k v hk]
        obtain ⟨hg, hpn, hqn, hdn, hpr, hqr, hdr, hpd, hqd⟩ := hs'
        have hmem : (i, t) ∈ (enqueue lockOk s).queue := List.getElem?_mem hk
        have hikey : i ∈ keysOf (enqueue lockOk s).queue :=
          List.mem_map.2 ⟨(i, t), hmem, rfl⟩
        have hkik : (keysOf (enqueue lockOk s).queue)[k]? = some i := by
          rw [keysOf, List.getElem?_map, hk]
          rfl
        have hinotq : i ∉ keysOf ((enqueue lockOk s).queue.eraseIdx k) := by
          rw [keysOf_eraseIdx]
          exact nodup_not_mem_eraseIdx hqn hkik
        have hsubq : ∀ j, j ∈ keysOf ((enqueue lockOk s).queue.eraseIdx k) →
            j ∈ keysOf (enqueue lockOk s).queue := by
          intro j hj
          rw [keysOf_eraseIdx] at hj
          exact (List.eraseIdx_sublist _ k).mem hj
        refine ⟨hg, hpn, ?_, ?_, hpr, ?_, ?_, ?_, ?_⟩
        · rw [keysOf_eraseIdx]
          exact hqn.sublist (List.eraseIdx_sublist _ k)
        · rw [List.nodup_append]
          refine ⟨hdn, List.nodup_singleton i, ?_⟩
          intro j hjd hji
          rw [List.mem_singleton] at hji
          subst hji
          exact hqd _ hikey hjd
        · intro j hj
          exact hqr j (hsubq j hj)
        · intro j hj
          rcases List.mem_append.1 hj with hj2 | hj2
          · exact hdr j hj2
          · rw [List.mem_singleton] at hj2
            subst hj2
            exact hqr _ hikey
        · intro j hj
          refine ⟨fun hh => (hpd j hj).1 (hsubq j hh), ?_⟩
          intro hh
          rcases List.mem_append.1 hh with hj2 | hj2
          · exact (hpd j hj).2 hj2
          · rw [List.mem_singleton] at hj2
            subst hj2
            exact (hpd _ hj).1 hikey
        · intro j hj
          intro hh
          rcases List.mem_append.1 hh with hj2 | hj2
          · exact hqd j (hsubq j hj) hj2
          · rw [List.mem_singleton] at hj2
            subst hj2
            exact hinotq hj
    | err k e =>
      cases hk : (enqueue lockOk s).queue[k]? with
      | none =>
        rw [pollStep_err_bad hcan lockOk k e hk]
        exact hs'
      | some p =>
        rw [pollStep_err hcan lockOk k e p hk]
        obtain ⟨hg, hpn, hqn, hdn, hpr, hqr, hdr, hpd, hqd⟩ := hs'
        have hsubq : ∀ j, j ∈ keysOf ((enqueue lockOk s).queue.eraseIdx k) →
            j ∈ keysOf (enqueue lockOk s).queue := by
          intro j hj
          rw [keysOf_eraseIdx] at hj
          exact (List.eraseIdx_sublist _ k).mem hj
        refine ⟨hg, hpn, ?_, hdn, hpr, ?_, hdr, ?_, ?_⟩
        · rw [keysOf_eraseIdx]
          exact hqn.sublist (List.eraseIdx_sublist _ k)
        · intro j hj
          exact hqr j (hsubq j hj)
        · intro j hj
          exact ⟨fun hh => (hpd j hj).1 (hsubq j hh), (hpd j hj).2⟩
        · intro j hj
          exact hqd j (hsubq j hj)

theorem stepF_Inv {V E : Type} {s : ExecSt T} (hs : Inv s) (st : Step T V E)
    (hw : wfStep s st = true) : Inv (stepF s st).1 := by
  cases st with
  | poll env => exact pollStep_Inv hs env
  | add lockOk deps task =>
    rw [wfStep] at hw
    refine addStep_Inv hs lockOk ?_ task
    intro d hd
    exact of_decide_eq_true (List.all_eq_true.1 hw d hd)
  | abort =>
    obtain ⟨hg, hpn, hqn, hdn, hpr, hqr, hdr, hpd, hqd⟩ := hs
    exact ⟨hg, hpn, hqn, hdn, hpr, hqr, hdr, hpd, hqd⟩

theorem runState_Inv {V E : Type} {s : ExecSt T} (hs : Inv s)
    (tr : List (Step T V E)) (hw : wfTrace s tr = true) : Inv (runState s tr) := by
  induction tr generalizing s with
  | nil => exact hs
  | cons st tr2 ih =>
    rw [wfTrace, Bool.and_eq_true] at hw
    exact ih (stepF_Inv hs st hw.1) hw.2

/-! ## Trace-level machinery -/

/-- An edge from `A` to `B` is recorded in the current graph. -/
def edgeIn (s : ExecSt T) (A B : Nat) : Prop := B ∈ s.graph.dag.walk A

/-- A settled node: already minted, no longer in the pending buffer, and its
state can never again become `Pending`. -/
def Settled (s : ExecSt T) (x : Nat) : Prop :=
  x < s.graph.dag.next ∧ x ∉ keysOf s.graph.pending ∧
    (s.graph.dag.getSt x = some .running ∨ s.graph.dag.getSt x = none)

theorem processDone_next (dag : Graph T) (q : List (Nat × T)) (L : List Nat) :
    (processDone dag q L).1.next = dag.next := by
  induction L generalizing dag q with
  | nil => rfl
  | cons d L2 ih =>
    rw [processDone_cons, ih, oneDone_next]

theorem enqueue_next (s : ExecSt T) (lockOk : Bool) :
    (enqueue lockOk s).graph.dag.next = s.graph.dag.next := by
  cases lockOk with
  | false => rw [enqueue_false]
  | true => rw [enqueue_true]; exact processDone_next ..

theorem enqueue_pending (s : ExecSt T) (lockOk : Bool) :
    (enqueue lockOk s).graph.pending = [] ∨
      (enqueue lockOk s).graph.pending = s.graph.pending := by
  cases lockOk with
  | false => rw [enqueue_false]; exact Or.inr rfl
  | true => rw [enqueue_true]; exact Or.inl rfl

theorem enqueue_done_sub (s : ExecSt T) (lockOk : Bool) :
    ∀ x ∈ (enqueue lockOk s).done, x ∈ s.done := by
  cases lockOk with
  | false => rw [enqueue_false]; exact fun x h => h
  | true => rw [enqueue_true]; intro x h; cases h

theorem enqueue_cancelled (s : ExecSt T) (lockOk : Bool) :
    (enqueue lockOk s).cancelled = s.cancelled := by
  cases lockOk with
  | false => rw [enqueue_false]
  | true => rw [enqueue_true]

theorem stepF_next_mono {V E : Type} (s : ExecSt T) (st : Step T V E) :
    s.graph.dag.next ≤ (stepF s st).1.graph.dag.next := by
  cases st with
  | abort => exact le_refl _
  | add lockOk deps task =>
    cases lockOk with
    | false => rw [stepF, addTask_false]
    | true =>
      by_cases hc : (deps.filter (fun i => s.graph.dag.contains i)).length = 0
      · rw [stepF, addTask_true_zero task hc]
        show s.graph.dag.next ≤ s.graph.dag.next + 1
        omega
      · rw [stepF, addTask_true_pos task hc]
        show s.graph.dag.next
          ≤ (deps.foldl (fun d parent => d.add_edge parent s.graph.dag.next)
              (s.graph.dag.add_node
                (.pending (deps.filter
                  (fun i => s.graph.dag.contains i)).length task)).2).next
        rw [Graph.foldl_add_edge_next, Graph.next_add_node]
        omega
  | poll env =>
    cases hcan : s.cancelled with
    | true => rw [stepF, pollStep_cancelled env hcan]
    | false =>
      obtain ⟨lockOk, qres⟩ := env
      cases qres with
      | silent =>
        rw [stepF, pollStep_silent hcan lockOk, enqueue_next]
      | ok k v =>
        cases hk : (enqueue lockOk s).queue[k]? with
        | none => rw [stepF, pollStep_ok_bad hcan lockOk k v hk, enqueue_next]
        | some p =>
          obtain ⟨i, t⟩ := p
          rw [stepF, pollStep_ok hcan lockOk k v hk]
          show s.graph.dag.next ≤ (enqueue lockOk s).graph.dag.next
          rw [enqueue_next]
      | err k e =>
        cases hk : (enqueue lockOk s).queue[k]? with
        | none => rw [stepF, pollStep_err_bad hcan lockOk k e hk, enqueue_next]
        | some p =>
          rw [stepF, pollStep_err hcan lockOk k e p hk]
          show s.graph.dag.next ≤ (enqueue lockOk s).graph.dag.next
          rw [enqueue_next]

theorem addTask_getSt_pres {g : TaskGraph T} (hg : GInv g.dag) (lockOk : Bool)
    (deps : List Nat) (task : T) (hx : x ∈ keysOf g.dag.nodes) :
    (AddTask.add_task lockOk g deps task).2.dag.getSt x = g.dag.getSt x := by
  have hxn : x ≠ g.dag.next := fun hh => absurd (hg.key_lt (hh ▸ hx)) (by omega)
  cases lockOk with
  | false => rw [addTask_false]
  | true =>
    by_cases hc : (deps.filter (fun i => g.dag.contains i)).length = 0
    · rw [addTask_true_zero task hc]
      exact Graph.getSt_add_node_ne _ _ hxn
    · rw [addTask_true_pos task hc]
      show (deps.foldl (fun d parent => d.add_edge parent g.dag.next)
        (g.dag.add_node (.pending
          (deps.filter (fun i => g.dag.contains i)).length task)).2).getSt x = _
      rw [Graph.foldl_add_edge_getSt, Graph.getSt_add_node_ne _ _ hxn]

theorem pollStep_graph {V E : Type} (s : ExecSt T) (env : Env V E) :
    (pollStep env s).1.graph = s.graph
      ∨ (pollStep env s).1.graph = (enqueue env.lockOk s).graph := by
  cases hcan : s.cancelled with
  | true => rw [pollStep_cancelled env hcan]; exact Or.inl rfl
  | false =>
    obtain ⟨lockOk, qres⟩ := env
    cases qres with
    | silent => rw [pollStep_silent hcan lockOk]; exact Or.inr rfl
    | ok k v =>
      cases hk : (enqueue lockOk s).queue[k]? with
      | none => rw [pollStep_ok_bad hcan lockOk k v hk]; exact Or.inr rfl
      | some p =>
        obtain ⟨i, t⟩ := p
        rw [pollStep_ok hcan lockOk k v hk]
        exact Or.inr rfl
    | err k e =>
      cases hk : (enqueue lockOk s).queue[k]? with
      | none => rw [pollStep_err_bad hcan lockOk k e hk]; exact Or.inr rfl
      | some p =>
        rw [pollStep_err hcan lockOk k e p hk]
        exact Or.inr rfl

theorem enqueue_getSt_run {s : ExecSt T} (hs : Inv s) (lockOk : Bool)
    (hx : s.graph.dag.getSt x = some .running) :
    (enqueue lockOk s).graph.dag.getSt x = some .running
      ∨ (enqueue lockOk s).graph.dag.getSt x = none := by
  obtain ⟨hg, hpn, hqn, hdn, hpr, hqr, hdr, hpd, hqd⟩ := hs
  cases lockOk with
  | false => rw [enqueue_false]; exact Or.inl hx
  | true =>
    rw [enqueue_true]
    obtain ⟨_, _, hkeys, _, hrun, _, _, _, _⟩ :=
      processDone_spec s.done (s.queue ++ s.graph.pending) hg hdn hdr
    by_cases hxd : x ∈ s.done
    · refine Or.inr ?_
      rw [Graph.getSt_eq_none_iff]
      intro hmem
      exact ((hkeys x).1 hmem).2 hxd
    · exact Or.inl (hrun x hxd hx)

theorem enqueue_getSt_run_keep {s : ExecSt T} (hs : Inv s) (lockOk : Bool)
    (hx : s.graph.dag.getSt x = some .running) (hxd : x ∉ s.done) :
    (enqueue lockOk s).graph.dag.getSt x = some .running := by
  obtain ⟨hg, hpn, hqn, hdn, hpr, hqr, hdr, hpd, hqd⟩ := hs
  cases lockOk with
  | false => rw [enqueue_false]; exact hx
  | true =>
    rw [enqueue_true]
    obtain ⟨_, _, _, _, hrun, _, _, _, _⟩ :=
      processDone_spec s.done (s.queue ++ s.graph.pending) hg hdn hdr
    exact hrun x hxd hx

theorem enqueue_getSt_none {s : ExecSt T} (hs : Inv s) (lockOk : Bool)
    (hx : s.graph.dag.getSt x = none) :
    (enqueue lockOk s).graph.dag.getSt x = none := by
  obtain ⟨hg, hpn, hqn, hdn, hpr, hqr, hdr, hpd, hqd⟩ := hs
  cases lockOk with
  | false => rw [enqueue_false]; exact hx
  | true =>
    rw [enqueue_true]
    obtain ⟨_, _, _, _, _, hnone, _, _, _⟩ :=
      processDone_spec s.done (s.queue ++ s.graph.pending) hg hdn hdr
    exact hnone x hx

theorem stepF_getSt_run {V E : Type} {s : ExecSt T} (hs : Inv s) (st : Step T V E)
    (hx : s.graph.dag.getSt x = some .running) :
    (stepF s st).1.graph.dag.getSt x = some .running
      ∨ (stepF s st).1.graph.dag.getSt x = none := by
  cases st with
  | abort => exact Or.inl hx
  | add lockOk deps task =>
    rw [stepF]
    show (AddTask.add_task lockOk s.graph deps task).2.dag.getSt x = _ ∨ _
    rw [addTask_getSt_pres hs.1 lockOk deps task (mem_keys_of_run hx)]
    exact Or.inl hx
  | poll env =>
    rcases pollStep_graph s env with hgr | hgr
    · rw [stepF, hgr]
      exact Or.inl hx
    · rw [stepF, hgr]
      exact enqueue_getSt_run hs env.lockOk hx

theorem stepF_getSt_run_keep {V E : Type} {s : ExecSt T} (hs : Inv s)
    (st : Step T V E) (hx : s.graph.dag.getSt x = some .running)
    (hxd : x ∉ s.done) :
    (stepF s st).1.graph.dag.getSt x = some .running := by
  cases st with
  | abort => exact hx
  | add lockOk deps task =>
    rw [stepF]
    show (AddTask.add_task lockOk s.graph deps task).2.dag.getSt x = _
    rw [addTask_getSt_pres hs.1 lockOk deps task (mem_keys_of_run hx)]
    exact hx
  | poll env =>
    rcases pollStep_graph s env with hgr | hgr
    · rw [stepF, hgr]
      exact hx
    · rw [stepF, hgr]
      exact enqueue_getSt_run_keep hs env.lockOk hx hxd

theorem stepF_getSt_none {V E : Type} {s : ExecSt T} (hs : Inv s) (st : Step T V E)
    (hx : s.graph.dag.getSt x = none) (hlt : x < s.graph.dag.next) :
    (stepF s st).1.graph.dag.getSt x = none := by
  cases st with
  | abort => exact hx
  | add lockOk deps task =>
    rw [stepF]
    show (AddTask.add_task lockOk s.graph deps task).2.dag.getSt x = _
    have hxn : x ≠ s.graph.dag.next := by omega
    cases lockOk with
    | false => rw [addTask_false]; exact hx
    | true =>
      by_cases hc : (deps.filter (fun i => s.graph.dag.contains i)).length = 0
      · rw [addTask_true_zero _ hc]
        rw [Graph.getSt_add_node_ne _ _ hxn]
        exact hx
      · rw [addTask_true_pos _ hc]
        show (deps.foldl (fun d parent => d.add_edge parent s.graph.dag.next)
          (s.graph.dag.add_node (.pending
            (deps.filter (fun i => s.graph.dag.contains i)).length task)).2).getSt x
          = _
        rw [Graph.foldl_add_edge_getSt, Graph.getSt_add_node_ne _ _ hxn]
        exact hx
  | poll env =>
    rcases pollStep_graph s env with hgr | hgr
    · rw [stepF, hgr]
      exact hx
    · rw [stepF, hgr]
      exact enqueue_getSt_none hs env.lockOk hx

theorem pollStep_pending_buf {V E : Type} (s : ExecSt T) (env : Env V E) :
    (pollStep env s).1.graph.pending = s.graph.pending
      ∨ (pollStep env s).1.graph.pending = [] := by
  rcases pollStep_graph s env with hgr | hgr
  · rw [hgr]
    exact Or.inl rfl
  · rw [hgr]
    rcases enqueue_pending s env.lockOk with h | h
    · exact Or.inr h
    · exact Or.inl h

theorem stepF_pend_sub {V E : Type} (s : ExecSt T) (st : Step T V E)
    (hx : x ∈ keysOf (stepF s st).1.graph.pending) :
    x ∈ keysOf s.graph.pending ∨ x = s.graph.dag.next := by
  cases st with
  | abort => exact Or.inl hx
  | add lockOk deps task =>
    cases lockOk with
    | false => exact Or.inl hx
    | true =>
      by_cases hc : (deps.filter (fun i => s.graph.dag.contains i)).length = 0
      · have hpend : (stepF s (Step.add true deps task : Step T V E)).1.graph.pending
            = s.graph.pending ++ [(s.graph.dag.next, task)] := by
          rw [stepF, addTask_true_zero _ hc]
        rw [hpend, keysOf_append, List.mem_append] at hx
        rcases hx with hx | hx
        · exact Or.inl hx
        · simp only [keysOf, List.map_cons, List.map_nil, List.mem_cons,
            List.not_mem_nil, or_false] at hx
          exact Or.inr hx
      · have hpend : (stepF s (Step.add true deps task : Step T V E)).1.graph.pending
            = s.graph.pending := by
          rw [stepF, addTask_true_pos _ hc]
        rw [hpend] at hx
        exact Or.inl hx
  | poll env =>
    rcases pollStep_pending_buf s env with h | h
    · rw [stepF] at hx
      rw [h] at hx
      exact Or.inl hx
    · rw [stepF] at hx
      rw [h] at hx
      simp [keysOf] at hx

theorem Settled_step {V E : Type} {s : ExecSt T} (hs : Inv s) (st : Step T V E)
    (hx : Settled s x) : Settled (stepF s st).1 x := by
  obtain ⟨hlt, hpend, hst⟩ := hx
  refine ⟨lt_of_lt_of_le hlt (stepF_next_mono s st), ?_, ?_⟩
  · intro hmem
    rcases stepF_pend_sub s st hmem with h | h
    · exact hpend h
    · omega
  · rcases hst with hrun | hnone
    · exact stepF_getSt_run hs st hrun
    · exact Or.inr (stepF_getSt_none hs st hnone hlt)

theorem Settled_run {V E : Type} {s : ExecSt T} (hs : Inv s)
    (tr : List (Step T V E)) (hw : wfTrace s tr = true) (hx : Settled s x) :
    Settled (runState s tr) x := by
  induction tr generalizing s with
  | nil => exact hx
  | cons st tr2 ih =>
    rw [wfTrace, Bool.and_eq_true] at hw
    exact ih (stepF_Inv hs st hw.1) hw.2 (Settled_step hs st hx)

theorem done_Settled {s : ExecSt T} (hs : Inv s) (hx : x ∈ s.done) :
    Settled s x := by
  obtain ⟨hg, hpn, hqn, hdn, hpr, hqr, hdr, hpd, hqd⟩ := hs
  exact ⟨hg.key_lt (mem_keys_of_run (hdr x hx)),
    fun hmem => (hpd x hmem).2 hx, Or.inl (hdr x hx)⟩

/-! ## Yield bookkeeping -/

theorem runState_append (s : ExecSt T) (t1 t2 : List (Step T V E)) :
    runState s (t1 ++ t2) = runState (runState s t1) t2 := by
  induction t1 generalizing s with
  | nil => rfl
  | cons st tr ih => rw [List.cons_append, runState, runState, ih]

theorem runOuts_append (s : ExecSt T) (t1 t2 : List (Step T V E)) :
    runOuts s (t1 ++ t2) = runOuts s t1 ++ runOuts (runState s t1) t2 := by
  induction t1 generalizing s with
  | nil => rfl
  | cons st tr ih =>
    rw [List.cons_append, runOuts, runOuts, ih, runState, List.cons_append]

theorem runOuts_length (s : ExecSt T) (tr : List (Step T V E)) :
    (runOuts s tr).length = tr.length := by
  induction tr generalizing s with
  | nil => rfl
  | cons st tr2 ih => rw [runOuts, List.length_cons, List.length_cons, ih]

theorem wfTrace_append (s : ExecSt T) (t1 t2 : List (Step T V E)) :
    wfTrace s (t1 ++ t2) = (wfTrace s t1 && wfTrace (runState s t1) t2) := by
  induction t1 generalizing s with
  | nil => rw [List.nil_append, wfTrace, runState, Bool.true_and]
  | cons st tr ih =>
    rw [List.cons_append, wfTrace, wfTrace, ih, runState, Bool.and_assoc]

theorem stepF_item_done {V E : Type} {s : ExecSt T} {st : Step T V E}
    {x : Nat} {v : V} (hout : (stepF s st).2 = .item x v) :
    x ∈ (stepF s st).1.done := by
  cases st with
  | abort => exact absurd hout (by rw [stepF]; intro h; cases h)
  | add lockOk deps task => exact absurd hout (by rw [stepF]; intro h; cases h)
  | poll env =>
    rw [stepF] at hout ⊢
    cases hcan : s.cancelled with
    | true =>
      rw [pollStep_cancelled env hcan] at hout
      cases hout
    | false =>
      obtain ⟨lockOk, qres⟩ := env
      cases qres with
      | silent =>
        rw [pollStep_silent hcan lockOk] at hout
        cases hout
      | ok k v2 =>
        cases hk : (enqueue lockOk s).queue[k]? with
        | none =>
          rw [pollStep_ok_bad hcan lockOk k v2 hk] at hout
          cases hout
        | some p =>
          obtain ⟨i, t⟩ := p
          rw [pollStep_ok hcan lockOk k v2 hk] at hout
          rw [pollStep_ok hcan lockOk k v2 hk]
          have : i = x := by
            cases hout
            rfl
          subst this
          show i ∈ (enqueue lockOk s).done ++ [i]
          exact List.mem_append_right _ (List.mem_singleton.2 rfl)
      | err k e =>
        cases hk : (enqueue lockOk s).queue[k]? with
        | none =>
          rw [pollStep_err_bad hcan lockOk k e hk] at hout
          cases hout
        | some p =>
          rw [pollStep_err hcan lockOk k e p hk] at hout
          cases hout

theorem stepF_done_sub {V E : Type} {s : ExecSt T} (st : Step T V E)
    (hx : x ∈ (stepF s st).1.done) :
    x ∈ s.done ∨ ∃ v, (stepF s st).2 = .item x v := by
  cases st with
  | abort => exact Or.inl hx
  | add lockOk deps task => exact Or.inl hx
  | poll env =>
    rw [stepF] at hx
    cases hcan : s.cancelled with
    | true =>
      rw [pollStep_cancelled env hcan] at hx
      exact Or.inl hx
    | false =>
      obtain ⟨lockOk, qres⟩ := env
      cases qres with
      | silent =>
        rw [pollStep_silent hcan lockOk] at hx
        exact Or.inl (enqueue_done_sub s lockOk x hx)
      | ok k v =>
        cases hk : (enqueue lockOk s).queue[k]? with
        | none =>
          rw [pollStep_ok_bad hcan lockOk k v hk] at hx
          exact Or.inl (enqueue_done_sub s lockOk x hx)
        | some p =>
          obtain ⟨i, t⟩ := p
          rw [pollStep_ok hcan lockOk k v hk] at hx
          have hx2 : x ∈ (enqueue lockOk s).done ++ [i] := hx
          rcases List.mem_append.1 hx2 with hx3 | hx3
          · exact Or.inl (enqueue_done_sub s lockOk x hx3)
          · rw [List.mem_singleton] at hx3
            subst hx3
            refine Or.inr ⟨v, ?_⟩
            rw [stepF, pollStep_ok hcan lockOk k v hk]
      | err k e =>
        cases hk : (enqueue lockOk s).queue[k]? with
        | none =>
          rw [pollStep_err_bad hcan lockOk k e hk] at hx
          exact Or.inl (enqueue_done_sub s lockOk x hx)
        | some p =>
          rw [pollStep_err hcan lockOk k e p hk] at hx
          exact Or.inl (enqueue_done_sub s lockOk x hx)

theorem enqueue_walk_pres {s : ExecSt T} (hs : Inv s) (lockOk : Bool)
    (hA : A ∉ s.done) :
    (enqueue lockOk s).graph.dag.walk A = s.graph.dag.walk A := by
  obtain ⟨hg, hpn, hqn, hdn, hpr, hqr, hdr, hpd, hqd⟩ := hs
  cases lockOk with
  | false => rw [enqueue_false]
  | true =>
    rw [enqueue_true]
    obtain ⟨_, _, _, hwalk, _, _, _, _, _⟩ :=
      processDone_spec s.done (s.queue ++ s.graph.pending) hg hdn hdr
    exact hwalk A hA

theorem stepF_edge_pres {V E : Type} {s : ExecSt T} (hs : Inv s) (st : Step T V E)
    (hA : A ∉ s.done) (he : edgeIn s A B) : edgeIn (stepF s st).1 A B := by
  have hAk : A ∈ keysOf s.graph.dag.nodes := mem_walk_mem_keys he
  have hAn : A ≠ s.graph.dag.next := fun hh => absurd (hs.1.key_lt (hh ▸ hAk)) (by omega)
  cases st with
  | abort => exact he
  | add lockOk deps task =>
    rw [edgeIn, stepF]
    show B ∈ (AddTask.add_task lockOk s.graph deps task).2.dag.walk A
    cases lockOk with
    | false => rw [addTask_false]; exact he
    | true =>
      by_cases hc : (deps.filter (fun i => s.graph.dag.contains i)).length = 0
      · rw [addTask_true_zero _ hc]
        rw [Graph.walk_add_node_ne _ _ hAn]
        exact he
      · rw [addTask_true_pos _ hc]
        show B ∈ (deps.foldl (fun d parent => d.add_edge parent s.graph.dag.next)
          (s.graph.dag.add_node (.pending
            (deps.filter (fun i => s.graph.dag.contains i)).length task)).2).walk A
        rw [Graph.foldl_add_edge_walk, Graph.walk_add_node_ne _ _ hAn]
        exact List.mem_append_left _ he
  | poll env =>
    rcases pollStep_graph s env with hgr | hgr
    · rw [edgeIn, stepF, hgr]
      exact he
    · rw [edgeIn, stepF, hgr]
      show B ∈ (enqueue env.lockOk s).graph.dag.walk A
      rw [enqueue_walk_pres hs env.lockOk hA]
      exact he

theorem step_no_yield_dep {V E : Type} {s : ExecSt T} (hs : Inv s)
    (st : Step T V E) (he : edgeIn s A B) (hA : A ∉ s.done) (v : V) :
    (stepF s st).2 ≠ .item B v := by
  intro hout
  obtain ⟨hg, hpn, hqn, hdn, hpr, hqr, hdr, hpd, hqd⟩ := hs
  obtain ⟨cB, tB, hB⟩ := isPendB_iff.1 (hg.walk_pend he)
  have hAk : A ∈ keysOf s.graph.dag.nodes := mem_walk_mem_keys he
  -- only a successful completion poll can yield an item
  cases st with
  | abort => rw [stepF] at hout; cases hout
  | add lockOk deps task => rw [stepF] at hout; cases hout
  | poll env =>
    rw [stepF] at hout
    cases hcan : s.cancelled with
    | true => rw [pollStep_cancelled env hcan] at hout; cases hout
    | false =>
      obtain ⟨lockOk, qres⟩ := env
      cases qres with
      | silent => rw [pollStep_silent hcan lockOk] at hout; cases hout
      | err k e =>
        cases hk : (enqueue lockOk s).queue[k]? with
        | none => rw [pollStep_err_bad hcan lockOk k e hk] at hout; cases hout
        | some p => rw [pollStep_err hcan lockOk k e p hk] at hout; cases hout
      | ok k v2 =>
        cases hk : (enqueue lockOk s).queue[k]? with
        | none => rw [pollStep_ok_bad hcan lockOk k v2 hk] at hout; cases hout
        | some p =>
          obtain ⟨i, t⟩ := p
          rw [pollStep_ok hcan lockOk k v2 hk] at hout
          have hiB : i = B := by
            cases hout
            rfl
          subst hiB
          have hmem : (i, t) ∈ (enqueue lockOk s).queue := List.getElem?_mem hk
          -- B is pending in s, so it cannot be a queue entry
          cases lockOk with
          | false =>
            rw [enqueue_false] at hmem
            have := hqr i (List.mem_map.2 ⟨(i, t), hmem, rfl⟩)
            rw [hB] at this
            cases this
          | true =>
            have hmem2 : (i, t) ∈ (processDone s.graph.dag
                (s.queue ++ s.graph.pending) s.done).2 := hmem
            obtain ⟨_, _, _, _, _, _, _, _, hpend⟩ :=
              processDone_spec s.done (s.queue ++ s.graph.pending) hg hdn hdr
            have hlt : (s.done.map (fun d => (s.graph.dag.walk d).count i)).sum
                < cB := by
              have hsum := sum_count_walks_le_inEdges (x := i) hg.nodupKeys
                (A :: s.done) (List.nodup_cons.2 ⟨hA, hdn⟩)
                (by
                  intro d hd
                  rcases List.mem_cons.1 hd with rfl | hd2
                  · exact hAk
                  · exact mem_keys_of_run (hdr d hd2))
              rw [List.map_cons, List.sum_cons] at hsum
              have hcnt : 0 < (s.graph.dag.walk A).count i :=
                List.count_pos_iff.2 he
              have hcB := (hg.pending_spec hB).1
              omega
            have hq := ((hpend i cB tB hB).1 hlt).2 t hmem2
            rcases List.mem_append.1 hq with hq2 | hq2
            · have := hqr i (List.mem_map.2 ⟨(i, t), hq2, rfl⟩)
              rw [hB] at this
              cases this
            · have := hpr i (List.mem_map.2 ⟨(i, t), hq2, rfl⟩)
              rw [hB] at this
              cases this

theorem run_done_yield {V E : Type} {s : ExecSt T} (tr : List (Step T V E))
    (hx : x ∈ (runState s tr).done) :
    x ∈ s.done ∨ ∃ (i : Nat) (v : V), (runOuts s tr)[i]? = some (.item x v) := by
  induction tr generalizing s with
  | nil => exact Or.inl hx
  | cons st tr2 ih =>
    rw [runState] at hx
    rcases ih (s := (stepF s st).1) hx with hx2 | ⟨i, v, hi⟩
    · rcases stepF_done_sub st hx2 with hx3 | ⟨v, hv⟩
      · exact Or.inl hx3
      · refine Or.inr ⟨0, v, ?_⟩
        rw [runOuts, List.getElem?_cons_zero, hv]
    · refine Or.inr ⟨i + 1, v, ?_⟩
      rw [runOuts, List.getElem?_cons_succ]
      exact hi

theorem run_pend_no_yield {V E : Type} {s : ExecSt T} (hs : Inv s)
    (tr : List (Step T V E)) (hw : wfTrace s tr = true)
    (hp : isPendB ((runState s tr).graph.dag.getSt x) = true) :
    ∀ (j : Nat) (v : V), (runOuts s tr)[j]? = some (.item x v) → False := by
  induction tr generalizing s with
  | nil => intro j v hj; rw [runOuts] at hj; simp at hj
  | cons st tr2 ih =>
    rw [wfTrace, Bool.and_eq_true] at hw
    intro j v hj
    rw [runOuts] at hj
    cases j with
    | zero =>
      rw [List.getElem?_cons_zero] at hj
      have hout : (stepF s st).2 = .item x v := Option.some.inj hj
      have hdone : x ∈ (stepF s st).1.done := stepF_item_done hout
      have hset : Settled (runState (stepF s st).1 tr2) x :=
        Settled_run (stepF_Inv hs st hw.1) tr2 hw.2
          (done_Settled (stepF_Inv hs st hw.1) hdone)
      rw [runState] at hp
      rcases hset.2.2 with hrun | hnone
      · rw [hrun] at hp
        cases hp
      · rw [hnone] at hp
        cases hp
    | succ j2 =>
      rw [List.getElem?_cons_succ] at hj
      rw [runState] at hp
      exact ih (stepF_Inv hs st hw.1) hw.2 hp j2 v hj

theorem getElem?_lt_length {l : List α} (h : l[i]? = some a) : i < l.length := by
  by_contra hc
  rw [List.getElem?_eq_none (by omega)] at h
  cases h

theorem dep_yield_order {V E : Type} {s : ExecSt T} (tr : List (Step T V E)) :
    Inv s → wfTrace s tr = true → edgeIn s A B → A ∉ s.done →
    ∀ (j : Nat) (v : V), (runOuts s tr)[j]? = some (.item B v) →
      ∃ (i : Nat) (w : V), i < j ∧ (runOuts s tr)[i]? = some (.item A w) := by
  induction tr generalizing s with
  | nil =>
    intro _ _ _ _ j v hj
    rw [runOuts] at hj
    simp at hj
  | cons st tr2 ih =>
    intro hs hw he hA j v hj
    rw [wfTrace, Bool.and_eq_true] at hw
    rw [runOuts] at hj
    cases j with
    | zero =>
      rw [List.getElem?_cons_zero] at hj
      exact absurd (Option.some.inj hj) (step_no_yield_dep hs st he hA v)
    | succ j2 =>
      rw [List.getElem?_cons_succ] at hj
      by_cases hA1 : A ∈ (stepF s st).1.done
      · rcases stepF_done_sub st hA1 with h | ⟨w, hwv⟩
        · exact absurd h hA
        · exact ⟨0, w, Nat.succ_pos _,
            by rw [runOuts, List.getElem?_cons_zero, hwv]⟩
      · obtain ⟨i2, w, hi2, hw2⟩ := ih (stepF_Inv hs st hw.1) hw.2
          (stepF_edge_pres hs st hA he) hA1 j2 v hj
        exact ⟨i2 + 1, w, by omega,
          by rw [runOuts, List.getElem?_cons_succ]; exact hw2⟩

theorem execute_Inv {g : TaskGraph T} (hg : InvT g) : Inv g.execute := by
  obtain ⟨h1, h2, h3⟩ := hg
  refine ⟨h1, ?_, h2, List.nodup_nil, ?_, h3, ?_, ?_, ?_⟩
  · exact List.nodup_nil
  · intro i hi
    cases hi
  · intro i hi
    cases hi
  · intro i hi
    cases hi
  · intro i hi
    exact fun hmem => absurd hmem (List.not_mem_nil i)

theorem execute_done (g : TaskGraph T) : (g.execute).done = [] := rfl

/-! ## Decidability of the invariants -/

instance (s : ExecSt T) (A B : Nat) : Decidable (edgeIn s A B) :=
  decidable_of_iff (B ∈ s.graph.dag.walk A) Iff.rfl

instance (dag : Graph T) : Decidable (GInv dag) :=
  decidable_of_iff ((keysOf dag.nodes).Nodup ∧
    (∀ p ∈ dag.nodes, p.1 < dag.next) ∧
    (∀ p ∈ dag.nodes, ∀ c ∈ p.2.children, c < dag.next) ∧
    (∀ p ∈ dag.nodes, nodeOk dag.nodes p) ∧
    (∀ p ∈ dag.nodes, ∀ x ∈ p.2.children, isPendB (dag.getSt x) = true)) Iff.rfl

instance [DecidableEq T] (s : ExecSt T) : Decidable (Inv s) :=
  decidable_of_iff (GInv s.graph.dag ∧
    (keysOf s.graph.pending).Nodup ∧
    (keysOf s.queue).Nodup ∧
    s.done.Nodup ∧
    (∀ i ∈ keysOf s.graph.pending, s.graph.dag.getSt i = some .running) ∧
    (∀ i ∈ keysOf s.queue, s.graph.dag.getSt i = some .running) ∧
    (∀ i ∈ s.done, s.graph.dag.getSt i = some .running) ∧
    (∀ i ∈ keysOf s.graph.pending, i ∉ keysOf s.queue ∧ i ∉ s.done) ∧
    (∀ i ∈ keysOf s.queue, i ∉ s.done)) Iff.rfl

instance [DecidableEq T] (g : TaskGraph T) : Decidable (InvT g) :=
  decidable_of_iff (GInv g.dag ∧
    (keysOf g.pending).Nodup ∧
    (∀ i ∈ keysOf g.pending, g.dag.getSt i = some .running)) Iff.rfl

/-! ## Claim theorems -/

/-- C1: in every execution of a task graph driven through the execution
stream (with submissions naming only already-minted identifiers), if an edge
from parent `A` to child `B` is recorded in the shared graph at any reachable
point of the trace — in particular at `B`'s creation, since an edge persists
from the child's creation until the parent's completion is processed — then
the `(identity, result)` pair for `B` is never yielded by the stream before
the pair for `A`: any output position yielding `B` is preceded by a strictly
earlier position yielding `A`. -/
theorem c1_edge_orders_yields {T V E : Type} {g : TaskGraph T}
    (hg : InvT g) (tr : List (Step T V E))
    (hw : wfTrace g.execute tr = true) (A B : Nat)
    (hedge : ∃ k, edgeIn (runState g.execute (tr.take k)) A B)
    (j : Nat) (v : V)
    (hB : (runOuts g.execute tr)[j]? = some (.item B v)) :
    ∃ (i : Nat) (w : V), i < j
      ∧ (runOuts g.execute tr)[i]? = some (.item A w) := by
  obtain ⟨k, hedgek⟩ := hedge
  have hsplit : tr = tr.take k ++ tr.drop k := (List.take_append_drop k tr).symm
  have hs0 : Inv g.execute := execute_Inv hg
  rw [hsplit, wfTrace_append, Bool.and_eq_true] at hw
  have hsk : Inv (runState g.execute (tr.take k)) :=
    runState_Inv hs0 (tr.take k) hw.1
  have hpendB : isPendB ((runState g.execute (tr.take k)).graph.dag.getSt B)
      = true := hsk.1.walk_pend hedgek
  rw [hsplit, runOuts_append] at hB ⊢
  rcases Nat.lt_or_ge j (runOuts g.execute (tr.take k)).length with hj | hj
  · rw [List.getElem?_append_left hj] at hB
    exact (run_pend_no_yield hs0 (tr.take k) hw.1 hpendB j v hB).elim
  · rw [List.getElem?_append_right hj] at hB
    by_cases hAk : A ∈ (runState g.execute (tr.take k)).done
    · rcases run_done_yield (tr.take k) hAk with hA0 | ⟨i, w, hi⟩
      · rw [execute_done] at hA0
        cases hA0
      · have hilt : i < (runOuts g.execute (tr.take k)).length :=
          getElem?_lt_length hi
        exact ⟨i, w, by omega, by rw [List.getElem?_append_left hilt]; exact hi⟩
    · obtain ⟨i2, w, hi2, hw2⟩ := dep_yield_order (tr.drop k) hsk hw.2 hedgek hAk
        (j - (runOuts g.execute (tr.take k)).length) v hB
      refine ⟨(runOuts g.execute (tr.take k)).length + i2, w, by omega, ?_⟩
      rw [List.getElem?_append_right (by omega)]
      have harith : (runOuts g.execute (tr.take k)).length + i2
          - (runOuts g.execute (tr.take k)).length = i2 := by omega
      rw [harith]
      exact hw2

theorem c1_edge_orders_yields_witness :
    ∃ (i : Nat) (w : Nat), i < 1
      ∧ (runOuts (((TaskGraph.new.add_task ([] : List Nat) 10).2.add_task
            [0] 11).2.execute)
          ([Step.poll ⟨true, QRes.ok 0 5⟩, Step.poll ⟨true, QRes.ok 0 6⟩]
            : List (Step Nat Nat Nat)))[i]?
        = some (.item 0 w) :=
  c1_edge_orders_yields (by decide)
    ([Step.poll ⟨true, QRes.ok 0 5⟩, Step.poll ⟨true, QRes.ok 0 6⟩]
      : List (Step Nat Nat Nat))
    (by decide) 0 1 ⟨0, by decide⟩ 1 6 (by decide)

/-- A monitor mirroring the recursion of `cascade` (`TaskWalker::next`,
src/src/lib.rs lines 229-251): true iff some visited node is `Pending` with
count 0 at the moment it is decremented — exactly the situation in which the
Rust `*count -= 1` on a `usize` would underflow. -/
def cascadeUnderflow (dag : Graph T) : List Nat → Bool
  | [] => false
  | i :: rest =>
    match dag.getSt i with
    | none => cascadeUnderflow dag rest
    | some .running => cascadeUnderflow dag rest
    | some (.pending c t) =>
      if c = 0 then true
      else if c - 1 = 0 then cascadeUnderflow (dag.setSt i .running) rest
      else cascadeUnderflow (dag.setSt i (.pending (c - 1) t)) rest

/-- Positivity of every stored `Pending` count, as an executable check. -/
def pendPosB (dag : Graph T) : Bool :=
  dag.nodes.all (fun p =>
    match p.2.st with
    | .pending c _ => decide (1 ≤ c)
    | .running => true)

theorem pendPos_of_B {dag : Graph T} (h : pendPosB dag = true) :
    ∀ x c t, dag.getSt x = some (.pending c t) → 1 ≤ c := by
  intro x c t hx
  rw [Graph.getSt] at hx
  cases hl : lookupN x dag.nodes with
  | none => rw [hl] at hx; cases hx
  | some e =>
    rw [hl, Option.map_some'] at hx
    have hst := Option.some.inj hx
    have hmem := lookupN_mem hl
    have := List.all_eq_true.1 h (x, e) hmem
    dsimp only at this
    rw [hst] at this
    exact of_decide_eq_true this

/-- C10: under the invariant that every node stored as `Pending` has a
dependency count of at least 1, the unchecked decrement in
`TaskWalker::next` never underflows: no visited node is `Pending` with count
0 at the moment of its decrement (the underflow monitor stays false), and
the invariant is re-established: whenever a decrement brings a count to
zero, the node is replaced by the `Running` sentinel in the same iteration
step, so the cascade never leaves a `Pending` node with count 0 in the
graph. -/
theorem c10_no_underflow {T : Type} (dag : Graph T) (l : List Nat)
    (hinv : ∀ x c t, dag.getSt x = some (.pending c t) → 1 ≤ c) :
    cascadeUnderflow dag l = false
    ∧ (∀ x c t, (cascade dag l).1.getSt x = some (.pending c t) → 1 ≤ c) := by
  induction l generalizing dag with
  | nil => exact ⟨rfl, hinv⟩
  | cons i rest ih =>
    cases h : dag.getSt i with
    | none =>
      rw [cascade_cons_none h]
      refine ⟨?_, (ih dag hinv).2⟩
      simp only [cascadeUnderflow, h]
      exact (ih dag hinv).1
    | some st =>
      cases st with
      | running =>
        rw [cascade_cons_running h]
        refine ⟨?_, (ih dag hinv).2⟩
        simp only [cascadeUnderflow, h]
        exact (ih dag hinv).1
      | pending c t =>
        have hc1 : 1 ≤ c := hinv i c t h
        by_cases hc : c - 1 = 0
        · have hinv2 : ∀ x c2 t2,
              (dag.setSt i .running).getSt x = some (.pending c2 t2) → 1 ≤ c2 := by
            intro x c2 t2 hx
            by_cases hxi : x = i
            · rw [hxi, Graph.getSt_setSt_self, h] at hx
              cases hx
            · rw [Graph.getSt_setSt_ne _ _ hxi] at hx
              exact hinv x c2 t2 hx
          rw [cascade_cons_extract h hc]
          refine ⟨?_, ?_⟩
          · simp only [cascadeUnderflow, h, if_neg (by omega : ¬ c = 0), if_pos hc]
            exact (ih _ hinv2).1
          · intro x c2 t2 hx
            exact (ih _ hinv2).2 x c2 t2 hx
        · have hinv2 : ∀ x c2 t2,
              (dag.setSt i (.pending (c - 1) t)).getSt x
                = some (.pending c2 t2) → 1 ≤ c2 := by
            intro x c2 t2 hx
            by_cases hxi : x = i
            · rw [hxi, Graph.getSt_setSt_self, h] at hx
              have := Option.some.inj hx
              cases this
              omega
            · rw [Graph.getSt_setSt_ne _ _ hxi] at hx
              exact hinv x c2 t2 hx
          rw [cascade_cons_dec h hc]
          refine ⟨?_, (ih _ hinv2).2⟩
          simp only [cascadeUnderflow, h, if_neg (by omega : ¬ c = 0), if_neg hc]
          exact (ih _ hinv2).1

theorem c10_no_underflow_witness :
    cascadeUnderflow
        (((TaskGraph.new.add_task ([] : List Nat) 10).2.add_task [0] 11).2.dag)
        ((((TaskGraph.new.add_task ([] : List Nat) 10).2.add_task
          [0] 11).2.dag).walk 0) = false :=
  (c10_no_underflow
    (((TaskGraph.new.add_task ([] : List Nat) 10).2.add_task [0] 11).2.dag)
    ((((TaskGraph.new.add_task ([] : List Nat) 10).2.add_task
      [0] 11).2.dag).walk 0)
    (pendPos_of_B (by decide))).1

/-- C2 counterexample: a task submitted with the duplicate dependency list
`[A, A]` gets count 2 and two recorded edges from `A`; processing `A`'s
single completion decrements the child's count twice — from 2 straight past
1 to 0, extracting it — not "by exactly one" (which would leave
`Pending 1`). -/
theorem c2_counterexample :
    (((TaskGraph.new.add_task ([] : List Nat) 10).2.add_task [0, 0] 11).2.dag.getSt 1
        = some (.pending 2 11))
    ∧ (processDone
        ((TaskGraph.new.add_task ([] : List Nat) 10).2.add_task [0, 0] 11).2.dag
        [] [0]).1.getSt 1 = some .running
    ∧ (some (State.running) : Option (State Nat)) ≠ some (.pending 1 11) := by
  decide

/-- C2 (amended): a node's dependency count never increases across any step
of the system, and processing one completed parent `d` decrements each
node's count by exactly the number of edges recorded from `d` to it (one per
occurrence of `d` in the dependency list at creation): a node with `m`
recorded edges from `d` and count `c` ends with count `c - m` when `m < c`,
is extracted (replaced by `Running`) when `m = c`, and a node with no
recorded edge from `d` — any "other node" — keeps its count unchanged. -/
theorem c2_count_discipline {T V E : Type} (s : ExecSt T) (st : Step T V E)
    (x : Nat) (c : Nat) (t : T) (c2' : Nat) (t2' : T) (hs : Inv s)
    (hx : s.graph.dag.getSt x = some (.pending c t))
    (dag : Graph T) (d y : Nat) (cy : Nat) (ty : T) (hg : GInv dag)
    (hd : dag.getSt d = some .running)
    (hy : dag.getSt y = some (.pending cy ty)) :
    ((stepF s st).1.graph.dag.getSt x = some (.pending c2' t2') → c2' ≤ c)
    ∧ (dag.walk d).count y ≤ cy
    ∧ ((dag.walk d).count y < cy →
        (processDone dag [] [d]).1.getSt y
          = some (.pending (cy - (dag.walk d).count y) ty))
    ∧ ((dag.walk d).count y = cy →
        (processDone dag [] [d]).1.getSt y = some .running)
    ∧ ((dag.walk d).count y = 0 →
        (processDone dag [] [d]).1.getSt y = some (.pending cy ty)) := by
  have hone : (processDone dag [] [d]).1
      = (cascade dag (dag.walk d)).1.remove_node d := rfl
  have hod := oneDone_pending hg hd hy
  refine ⟨?_, hod.1, ?_, ?_, ?_⟩
  · intro hx'
    cases st with
    | abort =>
      have hx2 : s.graph.dag.getSt x = some (.pending c2' t2') := hx'
      rw [hx] at hx2
      have := Option.some.inj hx2
      cases this
      exact le_refl _
    | add lockOk deps task =>
      have hxk : x ∈ keysOf s.graph.dag.nodes := by
        rw [← Graph.getSt_isSome_iff, hx]
        rfl
      rw [stepF] at hx'
      have hpres : (AddTask.add_task lockOk s.graph deps task).2.dag.getSt x
          = s.graph.dag.getSt x := addTask_getSt_pres hs.1 lockOk deps task hxk
      rw [hpres, hx] at hx'
      have := Option.some.inj hx'
      cases this
      exact le_refl _
    | poll env =>
      rcases pollStep_graph s env with hgr | hgr
      · rw [stepF, hgr, hx] at hx'
        have := Option.some.inj hx'
        cases this
        exact le_refl _
      · rw [stepF, hgr] at hx'
        obtain ⟨hg2, hpn, hqn, hdn, hpr, hqr, hdr, hpd, hqd⟩ := hs
        cases henv : env.lockOk with
        | false =>
          rw [henv, enqueue_false, hx] at hx'
          have := Option.some.inj hx'
          cases this
          exact le_refl _
        | true =>
          have hx2 : (processDone s.graph.dag (s.queue ++ s.graph.pending)
              s.done).1.getSt x = some (.pending c2' t2') := by
            rw [henv] at hx'
            exact hx'
          obtain ⟨_, _, _, _, _, _, _, _, hpend⟩ :=
            processDone_spec s.done (s.queue ++ s.graph.pending) hg2 hdn hdr
          have hsle := done_sum_le (L := s.done) hg2 hdn hdr hx
          rcases Nat.lt_or_ge ((s.done.map
              (fun d2 => (s.graph.dag.walk d2).count x)).sum) c with hlt | hge
          · have := ((hpend x c t hx).1 hlt).1
            rw [this] at hx2
            have h2 := Option.some.inj hx2
            cases h2
            omega
          · have heq : (s.done.map
                (fun d2 => (s.graph.dag.walk d2).count x)).sum = c := by omega
            have := ((hpend x c t hx).2 heq).1
            rw [this] at hx2
            cases hx2
  · intro hlt
    rw [hone]
    exact (hod.2.1 hlt).1
  · intro heq
    rw [hone]
    exact (hod.2.2 heq).1
  · intro hz
    rw [hone]
    have := (hod.2.1 (by
      have := (hg.pending_spec hy).2
      omega)).1
    rw [hz] at this
    simpa using this

/-- The two-task sample graph used by several witnesses: task 0 with no
dependencies, task 1 depending on task 0. -/
def sampleG : TaskGraph Nat :=
  ((TaskGraph.new.add_task ([] : List Nat) 10).2.add_task [0] 11).2

theorem c2_count_discipline_witness :
    ((stepF sampleG.execute (Step.abort : Step Nat Nat Nat)).1.graph.dag.getSt 1
        = some (.pending 1 11) → 1 ≤ 1)
    ∧ (sampleG.dag.walk 0).count 1 ≤ 1
    ∧ ((sampleG.dag.walk 0).count 1 < 1 →
        (processDone sampleG.dag [] [0]).1.getSt 1
          = some (.pending (1 - (sampleG.dag.walk 0).count 1) 11))
    ∧ ((sampleG.dag.walk 0).count 1 = 1 →
        (processDone sampleG.dag [] [0]).1.getSt 1 = some .running)
    ∧ ((sampleG.dag.walk 0).count 1 = 0 →
        (processDone sampleG.dag [] [0]).1.getSt 1 = some (.pending 1 11)) :=
  c2_count_discipline sampleG.execute (Step.abort : Step Nat Nat Nat) 1 1 11 1 11
    (by decide) (by decide) sampleG.dag 0 1 1 11
    (by decide) (by decide) (by decide)

/-- A dispatch event for node `x` across one step: either `x` leaves the
pending buffer (a buffered zero-dependency task entering the multiplexer) or
`x`'s state flips `Pending` to `Running` (extraction by the cascade). -/
def dispatchEvB (s s' : ExecSt T) (x : Nat) : Bool :=
  (decide (x ∈ keysOf s.graph.pending) && decide (x ∉ keysOf s'.graph.pending))
  || (isPendB (s.graph.dag.getSt x) && isRunB (s'.graph.dag.getSt x))

/-- The number of dispatch events for `x` along a trace. -/
def dispatchCnt (s : ExecSt T) (tr : List (Step T V E)) (x : Nat) : Nat :=
  match tr with
  | [] => 0
  | st :: tr2 =>
    (if dispatchEvB s (stepF s st).1 x then 1 else 0)
      + dispatchCnt (stepF s st).1 tr2 x

theorem dispatch_of_settled {s s' : ExecSt T} (hx : Settled s x) :
    dispatchEvB s s' x = false := by
  rw [dispatchEvB, Bool.or_eq_false_iff, Bool.and_eq_false_iff,
    Bool.and_eq_false_iff]
  constructor
  · exact Or.inl (by rw [decide_eq_false (by exact fun h => hx.2.1 h)])
  · refine Or.inl ?_
    rcases hx.2.2 with h | h <;> rw [h] <;> rfl

theorem dispatch_settles {V E : Type} {s : ExecSt T} (hs : Inv s)
    (st : Step T V E) (hev : dispatchEvB s (stepF s st).1 x = true) :
    Settled (stepF s st).1 x := by
  rw [dispatchEvB, Bool.or_eq_true, Bool.and_eq_true, Bool.and_eq_true] at hev
  rcases hev with ⟨h1, h2⟩ | ⟨h1, h2⟩
  · have h1' := of_decide_eq_true h1
    have h2' := of_decide_eq_true h2
    have hrun : s.graph.dag.getSt x = some .running := hs.2.2.2.2.1 x h1'
    have hlt : x < s.graph.dag.next := hs.1.key_lt (mem_keys_of_run hrun)
    exact ⟨lt_of_lt_of_le hlt (stepF_next_mono s st), h2',
      stepF_getSt_run hs st hrun⟩
  · obtain ⟨c, t, hp⟩ := isPendB_iff.1 h1
    have hlt : x < s.graph.dag.next := hs.1.key_lt (by
      rw [← Graph.getSt_isSome_iff, hp]
      rfl)
    refine ⟨lt_of_lt_of_le hlt (stepF_next_mono s st), ?_,
      Or.inl (isRunB_iff.1 h2)⟩
    intro hmem
    rcases stepF_pend_sub s st hmem with h | h
    · have := hs.2.2.2.2.1 x h
      rw [hp] at this
      cases this
    · omega

theorem dispatchCnt_zero_of_settled {V E : Type} {s : ExecSt T} (hs : Inv s)
    (tr : List (Step T V E)) (hw : wfTrace s tr = true) (hx : Settled s x) :
    dispatchCnt s tr x = 0 := by
  induction tr generalizing s with
  | nil => rfl
  | cons st tr2 ih =>
    rw [wfTrace, Bool.and_eq_true] at hw
    rw [dispatchCnt, dispatch_of_settled hx, if_neg (by simp),
      ih (stepF_Inv hs st hw.1) hw.2 (Settled_step hs st hx)]

theorem dispatchCnt_le_one {V E : Type} {s : ExecSt T} (hs : Inv s)
    (tr : List (Step T V E)) (hw : wfTrace s tr = true) (z : Nat) :
    dispatchCnt s tr z ≤ 1 := by
  induction tr generalizing s with
  | nil => exact Nat.zero_le _
  | cons st2 tr2 ih =>
    rw [wfTrace, Bool.and_eq_true] at hw
    rw [dispatchCnt]
    cases hev : dispatchEvB s (stepF s st2).1 z with
    | false =>
      rw [if_neg (by simp), Nat.zero_add]
      exact ih (stepF_Inv hs st2 hw.1) hw.2
    | true =>
      rw [if_pos rfl, dispatchCnt_zero_of_settled (stepF_Inv hs st2 hw.1)
        tr2 hw.2 (dispatch_settles hs st2 hev)]

/-- C3: a node's state never reverts from `Running`: across any step a
`Running` node stays `Running` or is removed; the `Pending` to `Running`
flip happens in `enqueue` exactly when the completions being processed bring
the node's count to zero (the recorded-edge decrements from the `done`
identifiers sum to exactly the count); and along any well-formed trace a node
is dispatched (leaves the pending buffer, or is extracted by the cascade) at
most once. -/
theorem c3_dispatch_once {T V E : Type} (s : ExecSt T) (st : Step T V E)
    (x : Nat) (y : Nat) (c : Nat) (t : T) (z : Nat) (tr : List (Step T V E))
    (hs : Inv s)
    (hrun : s.graph.dag.getSt x = some .running)
    (hpend : s.graph.dag.getSt y = some (.pending c t))
    (hw : wfTrace s tr = true) :
    ((stepF s st).1.graph.dag.getSt x = some .running
      ∨ (stepF s st).1.graph.dag.getSt x = none)
    ∧ ((enqueue true s).graph.dag.getSt y = some .running
        ↔ (s.done.map (fun d => (s.graph.dag.walk d).count y)).sum = c)
    ∧ dispatchCnt s tr z ≤ 1 := by
  obtain ⟨hg, hpn, hqn, hdn, hpr, hqr, hdr, hpd, hqd⟩ := hs
  have hs2 : Inv s := ⟨hg, hpn, hqn, hdn, hpr, hqr, hdr, hpd, hqd⟩
  refine ⟨stepF_getSt_run hs2 st hrun, ?_, ?_⟩
  · have heq : (enqueue true s).graph.dag
        = (processDone s.graph.dag (s.queue ++ s.graph.pending) s.done).1 := rfl
    obtain ⟨_, _, _, _, _, _, _, _, hpendS⟩ :=
      processDone_spec s.done (s.queue ++ s.graph.pending) hg hdn hdr
    have hsle := done_sum_le (L := s.done) hg hdn hdr hpend
    rw [heq]
    constructor
    · intro hfin
      rcases Nat.lt_or_ge ((s.done.map
          (fun d2 => (s.graph.dag.walk d2).count y)).sum) c with hlt | hge
      · have := ((hpendS y c t hpend).1 hlt).1
        rw [this] at hfin
        cases hfin
      · omega
    · intro hsum
      exact ((hpendS y c t hpend).2 hsum).1
  · exact dispatchCnt_le_one hs2 tr hw z

theorem c3_dispatch_once_witness :
    ((stepF sampleG.execute (Step.abort : Step Nat Nat Nat)).1.graph.dag.getSt 0
        = some .running
      ∨ (stepF sampleG.execute
          (Step.abort : Step Nat Nat Nat)).1.graph.dag.getSt 0 = none)
    ∧ ((enqueue true sampleG.execute).graph.dag.getSt 1 = some .running
        ↔ (sampleG.execute.done.map
            (fun d => (sampleG.execute.graph.dag.walk d).count 1)).sum = 1)
    ∧ dispatchCnt sampleG.execute
        ([Step.poll ⟨true, QRes.ok 0 5⟩] : List (Step Nat Nat Nat)) 1 ≤ 1 :=
  c3_dispatch_once sampleG.execute (Step.abort : Step Nat Nat Nat) 0 1 1 11 1
    ([Step.poll ⟨true, QRes.ok 0 5⟩] : List (Step Nat Nat Nat))
    (by decide) (by decide) (by decide) (by decide)

theorem walk_eq_nil_of_contains_false {g : Graph T} (h : g.contains q = false) :
    g.walk q = [] := by
  rw [Graph.walk, lookupN_eq_none_iff.2 (Graph.contains_eq_false_iff.1 h)]
  rfl

/-- C4: when `SubmissionHandle.add_task(deps, task)` acquires the shared
graph, the new node's count is the number of `deps` entries present in the
graph; with count zero the node is inserted `Running` and the task is
buffered; otherwise the node is inserted `Pending{count, task}` and one edge
is recorded from each present dependency per occurrence (the edge lists of
the present dependencies are extended by the new identifier, once per
occurrence in `deps`), and no edge is recorded from any absent dependency
(an absent dependency stays absent, with no edge list at all). -/
theorem c4_submission_insert {T : Type} (g : TaskGraph T) (deps : List Nat)
    (task : T) (hg : GInv g.dag) (hw : ∀ d ∈ deps, d < g.dag.next) :
    (AddTask.add_task true g deps task).1 = .ready g.dag.next
    ∧ ((deps.filter (fun i => g.dag.contains i)).length = 0 →
        (AddTask.add_task true g deps task).2.dag.getSt g.dag.next = some .running
        ∧ (AddTask.add_task true g deps task).2.pending
            = g.pending ++ [(g.dag.next, task)]
        ∧ ∀ p, (AddTask.add_task true g deps task).2.dag.walk p = g.dag.walk p)
    ∧ (¬ (deps.filter (fun i => g.dag.contains i)).length = 0 →
        (AddTask.add_task true g deps task).2.dag.getSt g.dag.next
            = some (.pending (deps.filter (fun i => g.dag.contains i)).length task)
        ∧ (AddTask.add_task true g deps task).2.pending = g.pending
        ∧ (∀ p, g.dag.contains p = true →
            (AddTask.add_task true g deps task).2.dag.walk p
              = g.dag.walk p ++ List.replicate (deps.count p) g.dag.next)
        ∧ (∀ q ∈ deps, g.dag.contains q = false →
            (AddTask.add_task true g deps task).2.dag.contains q = false
            ∧ (AddTask.add_task true g deps task).2.dag.walk q = [])) := by
  have hnk : g.dag.next ∉ keysOf g.dag.nodes := by
    intro hmem
    exact absurd (hg.key_lt hmem) (by omega)
  refine ⟨?_, ?_, ?_⟩
  · by_cases hc : (deps.filter (fun i => g.dag.contains i)).length = 0
    · rw [addTask_true_zero task hc]
    · rw [addTask_true_pos task hc]
  · intro hc
    rw [addTask_true_zero task hc]
    refine ⟨Graph.getSt_add_node_self _ _, rfl, ?_⟩
    intro p
    by_cases hp : p = g.dag.next
    · rw [hp, Graph.walk_add_node_self]
      rw [Graph.walk, lookupN_eq_none_iff.2 hnk]
      rfl
    · exact Graph.walk_add_node_ne _ _ hp
  · intro hc
    rw [addTask_true_pos task hc]
    have hgetSt : (deps.foldl (fun d parent => d.add_edge parent g.dag.next)
        (g.dag.add_node (.pending
          (deps.filter (fun i => g.dag.contains i)).length task)).2).getSt
          g.dag.next
        = some (.pending (deps.filter (fun i => g.dag.contains i)).length task) := by
      rw [Graph.foldl_add_edge_getSt, Graph.getSt_add_node_self]
    refine ⟨hgetSt, rfl, ?_, ?_⟩
    · intro p hp
      have hpk : p ∈ keysOf g.dag.nodes := Graph.contains_iff.1 hp
      have hpn : p ≠ g.dag.next := fun hh => hnk (hh ▸ hpk)
      rw [Graph.foldl_add_edge_walk, Graph.walk_add_node_ne _ _ hpn,
        Graph.contains_add_node_ne _ _ hpn, if_pos hp]
    · intro q hq hqabs
      have hqn : q ≠ g.dag.next := fun hh => absurd (hw q hq) (by omega)
      have hcon : (deps.foldl (fun d parent => d.add_edge parent g.dag.next)
          (g.dag.add_node (.pending
            (deps.filter (fun i => g.dag.contains i)).length task)).2).contains q
          = false := by
        rw [Graph.foldl_add_edge_contains, Graph.contains_add_node_ne _ _ hqn]
        exact hqabs
      exact ⟨hcon, walk_eq_nil_of_contains_false hcon⟩

theorem c4_submission_insert_witness :
    (AddTask.add_task true sampleG [0] 12).1 = .ready sampleG.dag.next
    ∧ (([0].filter (fun i => sampleG.dag.contains i)).length = 0 →
        (AddTask.add_task true sampleG [0] 12).2.dag.getSt sampleG.dag.next
            = some .running
        ∧ (AddTask.add_task true sampleG [0] 12).2.pending
            = sampleG.pending ++ [(sampleG.dag.next, 12)]
        ∧ ∀ p, (AddTask.add_task true sampleG [0] 12).2.dag.walk p
            = sampleG.dag.walk p)
    ∧ (¬ ([0].filter (fun i => sampleG.dag.contains i)).length = 0 →
        (AddTask.add_task true sampleG [0] 12).2.dag.getSt sampleG.dag.next
            = some (.pending
                ([0].filter (fun i => sampleG.dag.contains i)).length 12)
        ∧ (AddTask.add_task true sampleG [0] 12).2.pending = sampleG.pending
        ∧ (∀ p, sampleG.dag.contains p = true →
            (AddTask.add_task true sampleG [0] 12).2.dag.walk p
              = sampleG.dag.walk p
                ++ List.replicate ([0].count p) sampleG.dag.next)
        ∧ (∀ q ∈ [0], sampleG.dag.contains q = false →
            (AddTask.add_task true sampleG [0] 12).2.dag.contains q = false
            ∧ (AddTask.add_task true sampleG [0] 12).2.dag.walk q = [])) :=
  c4_submission_insert sampleG [0] 12 (by decide) (by decide)

/-- C7: when `SubmissionHandle.add_task` fails to acquire the shared graph it
returns "try later" and the shared task graph is returned untouched — the
very same value, so nodes, edges, the pending buffer and the mint counter
are all unchanged and no identifier is minted — and the identical retry,
when the lock is available, succeeds, minting the same identifier the
original call would have minted. -/
theorem c7_try_later_no_side_effects {T : Type} (g : TaskGraph T)
    (deps : List Nat) (task : T) :
    AddTask.add_task false g deps task = (.notReady, g)
    ∧ (AddTask.add_task false g deps task).2.dag.next = g.dag.next
    ∧ (AddTask.add_task false g deps task).2.pending = g.pending
    ∧ (AddTask.add_task true g deps task).1 = .ready g.dag.next := by
  refine ⟨addTask_false .., rfl, rfl, ?_⟩
  by_cases hc : (deps.filter (fun i => g.dag.contains i)).length = 0
  · rw [addTask_true_zero task hc]
  · rw [addTask_true_pos task hc]

theorem processDone_queue_mono {dag : Graph T} {q : List (Nat × T)}
    (L : List Nat) : ∀ p ∈ q, p ∈ (processDone dag q L).2 := by
  induction L generalizing dag q with
  | nil => exact fun p hp => hp
  | cons d L2 ih =>
    intro p hp
    rw [processDone_cons]
    exact ih p (List.mem_append_left _ hp)

/-- C8: submitting a task through the submission handle with a dependency
list whose identifiers are all absent from the graph produces literally the
same result as submitting it with an empty dependency list: the very same
`(id, new graph)` pair, with the node inserted `Running`, the task buffered,
and — on the next `enqueue` that acquires the lock — the task moved into the
multiplexer queue (dispatched). -/
theorem c8_absent_deps_like_empty {T : Type} (g : TaskGraph T) (deps : List Nat)
    (task : T) (lockOk : Bool)
    (habs : ∀ d ∈ deps, g.dag.contains d = false) :
    AddTask.add_task lockOk g deps task = AddTask.add_task lockOk g [] task
    ∧ (AddTask.add_task true g deps task).2.dag.getSt g.dag.next = some .running
    ∧ (AddTask.add_task true g deps task).2.pending
        = g.pending ++ [(g.dag.next, task)]
    ∧ (∀ s : ExecSt T, s.graph = (AddTask.add_task true g deps task).2 →
        (g.dag.next, task) ∈ (enqueue true s).queue) := by
  have hfil : deps.filter (fun i => g.dag.contains i) = [] := by
    rw [List.filter_eq_nil_iff]
    intro a ha
    rw [habs a ha]
    exact Bool.false_ne_true
  have hc : (deps.filter (fun i => g.dag.contains i)).length = 0 := by
    rw [hfil]
    rfl
  have hznil : AddTask.add_task true g deps task
      = (.ready g.dag.next,
         { dag := (g.dag.add_node .running).2,
           pending := g.pending ++ [(g.dag.next, task)] }) := addTask_true_zero task hc
  refine ⟨?_, ?_, ?_, ?_⟩
  · cases lockOk with
    | false => rw [addTask_false, addTask_false]
    | true =>
      rw [hznil, addTask_true_zero task (by rfl)]
  · rw [hznil]
    exact Graph.getSt_add_node_self _ _
  · rw [hznil]
  · intro s hsg
    rw [enqueue_true]
    refine processDone_queue_mono s.done (g.dag.next, task) ?_
    refine List.mem_append_right _ ?_
    rw [hsg, hznil]
    exact List.mem_append_right _ (List.mem_cons_self _ _)

theorem c8_absent_deps_like_empty_witness :
    (AddTask.add_task true sampleG [5] 12 = AddTask.add_task true sampleG [] 12)
    ∧ (AddTask.add_task true sampleG [5] 12).2.dag.getSt sampleG.dag.next
        = some .running
    ∧ (AddTask.add_task true sampleG [5] 12).2.pending
        = sampleG.pending ++ [(sampleG.dag.next, 12)]
    ∧ (∀ s : ExecSt Nat, s.graph = (AddTask.add_task true sampleG [5] 12).2 →
        (sampleG.dag.next, 12) ∈ (enqueue true s).queue) :=
  c8_absent_deps_like_empty sampleG [5] 12 true (by decide)

theorem stepF_cancel_keep {V E : Type} {s : ExecSt T} (hcan : s.cancelled = true)
    (st : Step T V E) :
    (stepF s st).1.cancelled = true
    ∧ ((stepF s st).2 = Out.ended ∨ (stepF s st).2 = Out.none) := by
  cases st with
  | abort => exact ⟨rfl, Or.inr rfl⟩
  | add lockOk deps task => exact ⟨hcan, Or.inr rfl⟩
  | poll env =>
    rw [stepF, pollStep_cancelled env hcan]
    exact ⟨hcan, Or.inl rfl⟩

theorem run_cancelled_outs {V E : Type} {s : ExecSt T} (hcan : s.cancelled = true)
    (tr : List (Step T V E)) :
    ∀ (j : Nat) (o : Out V E), (runOuts s tr)[j]? = some o →
      o = .ended ∨ o = .none := by
  induction tr generalizing s with
  | nil =>
    intro j o hj
    rw [runOuts] at hj
    simp at hj
  | cons st tr2 ih =>
    intro j o hj
    rw [runOuts] at hj
    cases j with
    | zero =>
      rw [List.getElem?_cons_zero] at hj
      have := Option.some.inj hj
      subst this
      exact (stepF_cancel_keep hcan st).2
    | succ j2 =>
      rw [List.getElem?_cons_succ] at hj
      exact ih (stepF_cancel_keep hcan st).1 j2 o hj

/-- C6: once the cancellation signal has fired — or the sending half has
been dropped, which `Execute::poll` treats identically (`Ok(Ready)` and
`Err` both return `Ready(None)`) — every poll returns end-of-sequence
immediately with the state untouched, regardless of buffered or in-flight
work, and no further poll of any trace ever yields an item or an error:
every subsequent observation is `ended` (polls) or `none` (submission-side
steps). -/
theorem c6_cancellation_ends_stream {T V E : Type} (s : ExecSt T) (env : Env V E)
    (tr : List (Step T V E)) (hcan : s.cancelled = true) :
    pollStep env s = (s, .ended)
    ∧ (∀ (j : Nat) (o : Out V E), (runOuts s tr)[j]? = some o →
        o = .ended ∨ o = .none) :=
  ⟨pollStep_cancelled env hcan, run_cancelled_outs hcan tr⟩

theorem c6_cancellation_ends_stream_witness :
    pollStep (⟨true, QRes.ok 0 5⟩ : Env Nat Nat)
        (stepF sampleG.execute (Step.abort : Step Nat Nat Nat)).1
      = ((stepF sampleG.execute (Step.abort : Step Nat Nat Nat)).1, .ended)
    ∧ (∀ (j : Nat) (o : Out Nat Nat),
        (runOuts (stepF sampleG.execute (Step.abort : Step Nat Nat Nat)).1
          ([Step.poll ⟨true, QRes.ok 0 5⟩, Step.poll ⟨true, QRes.ok 0 6⟩]
            : List (Step Nat Nat Nat)))[j]? = some o →
        o = .ended ∨ o = .none) :=
  c6_cancellation_ends_stream
    (stepF sampleG.execute (Step.abort : Step Nat Nat Nat)).1
    (⟨true, QRes.ok 0 5⟩ : Env Nat Nat)
    ([Step.poll ⟨true, QRes.ok 0 5⟩, Step.poll ⟨true, QRes.ok 0 6⟩]
      : List (Step Nat Nat Nat))
    (by decide)

/-- C5 counterexample: a task failure is not terminal in the code.  With two
independent in-flight tasks, the poll that observes task 1's failure returns
the error, and the very next poll still yields task 0's (identity, result)
pair — refuting "the sequence ends at that point: no further (identity,
result) items are yielded by any subsequent poll".  `Execute::poll` returns
`Err(err)` after the multiplexer drops only the failing future; nothing
marks the stream finished, so a consumer that polls again keeps receiving
items. -/
theorem c5_counterexample :
    runOuts (((TaskGraph.new.add_task ([] : List Nat) 10).2.add_task
          ([] : List Nat) 11).2.execute)
        ([Step.poll ⟨true, QRes.err 1 9⟩, Step.poll ⟨true, QRes.ok 0 5⟩]
          : List (Step Nat Nat Nat))
      = [Out.error 9, Out.item 0 5] := by
  decide

/-- A concrete execution state with two independent in-flight tasks, used to
witness the error-observation characterisation. -/
def c5s : ExecSt Nat :=
  ((TaskGraph.new.add_task ([] : List Nat) 10).2.add_task ([] : List Nat) 11).2.execute

/-- C5 (amended): when an in-flight task resolves with an error, the poll
that observes it surfaces that error to the consumer, and the failing tagged
future is dropped from the multiplexer — so that particular failure is
surfaced at most once (its identifier is no longer in the multiplexer).  The
completion is not recorded: `done` and the graph after the step are exactly
those left by the best-effort `enqueue`, and items yielded before the error
stand unchanged.  The code itself does not end the sequence — a subsequent
poll can still yield items (see the counterexample); treating `Err` as
terminal is the futures-0.1 consumer convention, not enforced by this
stream. -/
theorem c5_error_observation {T V E : Type} (s : ExecSt T) (lockOk : Bool)
    (k : Nat) (e : E) (i : Nat) (t : T) (hs : Inv s)
    (hcan : s.cancelled = false)
    (hk : (enqueue lockOk s).queue[k]? = some (i, t)) :
    pollStep (⟨lockOk, QRes.err k e⟩ : Env V E) s
      = ({ enqueue lockOk s with
            queue := (enqueue lockOk s).queue.eraseIdx k }, .error e)
    ∧ i ∉ keysOf ((enqueue lockOk s).queue.eraseIdx k)
    ∧ (pollStep (⟨lockOk, QRes.err k e⟩ : Env V E) s).1.done
        = (enqueue lockOk s).done
    ∧ (pollStep (⟨lockOk, QRes.err k e⟩ : Env V E) s).1.graph
        = (enqueue lockOk s).graph := by
  have h1 := pollStep_err (V := V) hcan lockOk k e (i, t) hk
  refine ⟨h1, ?_, by rw [h1], by rw [h1]⟩
  have hqn : (keysOf (enqueue lockOk s).queue).Nodup :=
    (enqueue_Inv hs lockOk).2.2.1
  have hki : (keysOf (enqueue lockOk s).queue)[k]? = some i := by
    rw [keysOf, List.getElem?_map, hk]
    rfl
  rw [keysOf_eraseIdx]
  exact nodup_not_mem_eraseIdx hqn hki

theorem c5_error_observation_witness :
    pollStep (⟨true, QRes.err 1 9⟩ : Env Nat Nat) c5s
      = ({ enqueue true c5s with queue := (enqueue true c5s).queue.eraseIdx 1 },
         .error 9)
    ∧ 1 ∉ keysOf ((enqueue true c5s).queue.eraseIdx 1)
    ∧ (pollStep (⟨true, QRes.err 1 9⟩ : Env Nat Nat) c5s).1.done
        = (enqueue true c5s).done
    ∧ (pollStep (⟨true, QRes.err 1 9⟩ : Env Nat Nat) c5s).1.graph
        = (enqueue true c5s).graph :=
  c5_error_observation c5s true 1 9 1 11 (by decide) (by decide) (by decide)

/-- A three-task graph: tasks 0 and 1 are independent, task 2 depends on
both of them, used for the failure-abandonment claim. -/
def c9g : TaskGraph Nat :=
  (((TaskGraph.new.add_task ([] : List Nat) 10).2.add_task
    ([] : List Nat) 11).2.add_task [0, 1] 12).2

/-- A driving trace for `c9g.execute`: task 1 fails, then task 0 completes,
then a plain poll lets `enqueue` process the completion. -/
def c9tr : List (Step Nat Nat Nat) :=
  [Step.poll ⟨true, QRes.err 1 9⟩, Step.poll ⟨true, QRes.ok 0 5⟩,
   Step.poll ⟨true, QRes.silent⟩]

/-- C9 counterexample: "none of its descendants' dependency counts are
decremented" is false.  Task 2 depends on task 0 and task 1 (count 2, one
recorded edge from each).  Task 1 fails; task 0 then completes and is
processed, which decrements task 2's count from 2 to 1 — the count of a
node depending on the failed task has been decremented after the failure. -/
theorem c9_counterexample :
    c9g.dag.getSt 2 = some (.pending 2 12)
    ∧ 2 ∈ c9g.dag.walk 1
    ∧ runOuts c9g.execute c9tr = [Out.error 9, Out.item 0 5, Out.notReady]
    ∧ (runState c9g.execute c9tr).graph.dag.getSt 2 = some (.pending 1 12) := by
  decide

/-! ## Zombie nodes: the permanent residue of a failed task -/

/-- A zombie identifier: present in the graph as `Running` but held by none
of the bookkeeping buffers — not in `done`, not in the multiplexer queue,
not in the pending buffer.  A failed task becomes one, and nothing ever
touches its node again. -/
def Zombie (s : ExecSt T) (x : Nat) : Prop :=
  s.graph.dag.getSt x = some .running
  ∧ x ∉ s.done
  ∧ x ∉ keysOf s.queue
  ∧ x ∉ keysOf s.graph.pending

theorem Zombie_enqueue {s : ExecSt T} (hs : Inv s) (lockOk : Bool)
    (hz : Zombie s x) : Zombie (enqueue lockOk s) x := by
  obtain ⟨hz1, hz2, hz3, hz4⟩ := hz
  cases lockOk with
  | false => rw [enqueue_false]; exact ⟨hz1, hz2, hz3, hz4⟩
  | true =>
    have h1 : (enqueue true s).graph.dag.getSt x = some .running :=
      enqueue_getSt_run_keep hs true hz1 hz2
    obtain ⟨hg, hpn, hqn, hdn, hpr, hqr, hdr, hpd, hqd⟩ := hs
    obtain ⟨_, _, _, _, _, _, _, hprov, _⟩ :=
      processDone_spec s.done (s.queue ++ s.graph.pending) hg hdn hdr
    refine ⟨h1, ?_, ?_, ?_⟩
    · rw [enqueue_true]
      intro h
      cases h
    · rw [enqueue_true]
      intro hmem
      obtain ⟨p, hp, hpx⟩ := List.mem_map.1 hmem
      rcases hprov p hp with hq | ⟨c', hc'⟩
      · rcases List.mem_append.1 hq with hq1 | hq2
        · exact hz3 (hpx ▸ List.mem_map.2 ⟨p, hq1, rfl⟩)
        · exact hz4 (hpx ▸ List.mem_map.2 ⟨p, hq2, rfl⟩)
      · rw [hpx, hz1] at hc'
        cases hc'
    · rw [enqueue_true]
      intro h
      cases h

theorem Zombie_step {V E : Type} {s : ExecSt T} (hs : Inv s) (st : Step T V E)
    (hz : Zombie s x) : Zombie (stepF s st).1 x := by
  obtain ⟨hz1, hz2, hz3, hz4⟩ := hz
  cases st with
  | abort => exact ⟨hz1, hz2, hz3, hz4⟩
  | add lockOk deps task =>
    have h1 : (AddTask.add_task lockOk s.graph deps task).2.dag.getSt x
        = some .running := by
      rw [addTask_getSt_pres hs.1 lockOk deps task (mem_keys_of_run hz1)]
      exact hz1
    have h4 : x ∉ keysOf (AddTask.add_task lockOk s.graph deps task).2.pending := by
      cases lockOk with
      | false => rw [addTask_false]; exact hz4
      | true =>
        by_cases hc : (deps.filter (fun i => s.graph.dag.contains i)).length = 0
        · rw [addTask_true_zero task hc]
          show x ∉ keysOf (s.graph.pending ++ [(s.graph.dag.next, task)])
          rw [keysOf, List.map_append, List.mem_append]
          rintro (hm | hm)
          · exact hz4 hm
          · have hxn : x < s.graph.dag.next := hs.1.key_lt (mem_keys_of_run hz1)
            simp at hm
            omega
        · rw [addTask_true_pos task hc]
          exact hz4
    exact ⟨h1, hz2, hz3, h4⟩
  | poll env =>
    rw [stepF]
    cases hcan : s.cancelled with
    | true =>
      rw [pollStep_cancelled env hcan]
      exact ⟨hz1, hz2, hz3, hz4⟩
    | false =>
      obtain ⟨lockOk, qres⟩ := env
      obtain ⟨he1, he2, he3, he4⟩ :=
        Zombie_enqueue hs lockOk ⟨hz1, hz2, hz3, hz4⟩
      cases qres with
      | silent =>
        rw [pollStep_silent hcan lockOk]
        exact ⟨he1, he2, he3, he4⟩
      | ok k v =>
        cases hk : (enqueue lockOk s).queue[k]? with
        | none =>
          rw [pollStep_ok_bad hcan lockOk k v hk]
          exact ⟨he1, he2, he3, he4⟩
        | some p =>
          obtain ⟨i2, t2⟩ := p
          rw [pollStep_ok hcan lockOk k v hk]
          refine ⟨he1, ?_, ?_, he4⟩
          · intro hmem
            rcases List.mem_append.1 hmem with hm | hm
            · exact he2 hm
            · have hpq : (i2, t2) ∈ (enqueue lockOk s).queue :=
                List.getElem?_mem hk
              have hik : i2 ∈ keysOf (enqueue lockOk s).queue :=
                List.mem_map.2 ⟨(i2, t2), hpq, rfl⟩
              rw [List.mem_singleton] at hm
              exact he3 (hm ▸ hik)
          · intro hmem
            rw [keysOf_eraseIdx] at hmem
            exact he3 (List.eraseIdx_subset _ _ hmem)
      | err k e =>
        cases hk : (enqueue lockOk s).queue[k]? with
        | none =>
          rw [pollStep_err_bad hcan lockOk k e hk]
          exact ⟨he1, he2, he3, he4⟩
        | some p =>
          rw [pollStep_err hcan lockOk k e p hk]
          refine ⟨he1, he2, ?_, he4⟩
          intro hmem
          rw [keysOf_eraseIdx] at hmem
          exact he3 (List.eraseIdx_subset _ _ hmem)

theorem Zombie_run {V E : Type} {s : ExecSt T} (hs : Inv s)
    (tr : List (Step T V E)) (hw : wfTrace s tr = true) (hz : Zombie s x) :
    Zombie (runState s tr) x := by
  induction tr generalizing s with
  | nil => exact hz
  | cons st tr2 ih =>
    rw [wfTrace, Bool.and_eq_true] at hw
    exact ih (stepF_Inv hs st hw.1) hw.2 (Zombie_step hs st hz)

theorem Zombie_no_yield {V E : Type} {s : ExecSt T} (hs : Inv s)
    (tr : List (Step T V E)) (hw : wfTrace s tr = true) (hz : Zombie s x) :
    ∀ (j : Nat) (v : V), (runOuts s tr)[j]? ≠ some (.item x v) := by
  induction tr generalizing s with
  | nil =>
    intro j v hj
    rw [runOuts] at hj
    simp at hj
  | cons st tr2 ih =>
    rw [wfTrace, Bool.and_eq_true] at hw
    intro j v hj
    rw [runOuts] at hj
    cases j with
    | zero =>
      rw [List.getElem?_cons_zero] at hj
      have hout : (stepF s st).2 = .item x v := Option.some.inj hj
      have hdone : x ∈ (stepF s st).1.done := stepF_item_done hout
      exact (Zombie_step hs st hz).2.1 hdone
    | succ j2 =>
      rw [List.getElem?_cons_succ] at hj
      exact ih (stepF_Inv hs st hw.1) hw.2 (Zombie_step hs st hz) j2 v hj

theorem err_Zombie {V E : Type} {s : ExecSt T} (hs : Inv s)
    (hcan : s.cancelled = false) (lockOk : Bool) (k : Nat) (e : E)
    {x : Nat} {t : T} (hk : (enqueue lockOk s).queue[k]? = some (x, t)) :
    Zombie (pollStep (⟨lockOk, QRes.err k e⟩ : Env V E) s).1 x := by
  rw [pollStep_err hcan lockOk k e (x, t) hk]
  obtain ⟨hg, hpn, hqn, hdn, hpr, hqr, hdr, hpd, hqd⟩ := enqueue_Inv hs lockOk
  have hxq : x ∈ keysOf (enqueue lockOk s).queue := by
    have hpq : (x, t) ∈ (enqueue lockOk s).queue := List.getElem?_mem hk
    exact List.mem_map.2 ⟨(x, t), hpq, rfl⟩
  refine ⟨hqr x hxq, hqd x hxq, ?_, fun hm => (hpd x hm).1 hxq⟩
  have hki : (keysOf (enqueue lockOk s).queue)[k]? = some x := by
    rw [keysOf, List.getElem?_map, hk]
    rfl
  rw [keysOf_eraseIdx]
  exact nodup_not_mem_eraseIdx hqn hki

/-- C9 (amended): when an in-flight task `x` resolves with an error, the
observing poll yields the error without recording the completion: `x` is
never appended to the `done` buffer at any later reachable state, its node
is never removed from the graph and stays `Running` forever, its (identity,
result) pair is never yielded, and every node with a recorded edge from `x`
remains `Pending` in the graph indefinitely (it is never extracted and
dispatched — though, unlike the original claim, its count can still be
decremented by its other completing parents, see the counterexample). -/
theorem c9_error_abandons {T V E : Type} (s : ExecSt T) (lockOk : Bool)
    (k : Nat) (e : E) (x : Nat) (t : T) (tr : List (Step T V E))
    (hs : Inv s) (hcan : s.cancelled = false)
    (hk : (enqueue lockOk s).queue[k]? = some (x, t))
    (hw : wfTrace (pollStep (⟨lockOk, QRes.err k e⟩ : Env V E) s).1 tr = true) :
    (pollStep (⟨lockOk, QRes.err k e⟩ : Env V E) s).2 = .error e
    ∧ x ∉ (runState (pollStep (⟨lockOk, QRes.err k e⟩ : Env V E) s).1 tr).done
    ∧ (runState (pollStep (⟨lockOk, QRes.err k e⟩ : Env V E) s).1 tr).graph.dag.getSt x
        = some .running
    ∧ (∀ b ∈ (runState (pollStep (⟨lockOk, QRes.err k e⟩ : Env V E) s).1 tr).graph.dag.walk x,
        isPendB ((runState (pollStep (⟨lockOk, QRes.err k e⟩ : Env V E) s).1 tr).graph.dag.getSt b)
          = true)
    ∧ (∀ (j : Nat) (v : V),
        (runOuts (pollStep (⟨lockOk, QRes.err k e⟩ : Env V E) s).1 tr)[j]?
          ≠ some (.item x v)) := by
  have hz : Zombie (pollStep (⟨lockOk, QRes.err k e⟩ : Env V E) s).1 x :=
    err_Zombie hs hcan lockOk k e hk
  have hs1 : Inv (pollStep (⟨lockOk, QRes.err k e⟩ : Env V E) s).1 :=
    pollStep_Inv hs _
  have hzN := Zombie_run hs1 tr hw hz
  have hsN := runState_Inv hs1 tr hw
  refine ⟨?_, hzN.2.1, hzN.1, ?_, Zombie_no_yield hs1 tr hw hz⟩
  · rw [pollStep_err hcan lockOk k e (x, t) hk]
  · intro b hb
    exact hsN.1.walk_pend hb

/-- The continuation trace used to witness the abandonment theorem: after
task 1's failure, task 0 completes and is then processed. -/
def c9wtr : List (Step Nat Nat Nat) :=
  [Step.poll ⟨true, QRes.ok 0 5⟩, Step.poll ⟨true, QRes.silent⟩]

theorem c9_error_abandons_witness :
    (pollStep (⟨true, QRes.err 1 9⟩ : Env Nat Nat) c9g.execute).2 = .error 9
    ∧ 1 ∉ (runState (pollStep (⟨true, QRes.err 1 9⟩ : Env Nat Nat) c9g.execute).1 c9wtr).done
    ∧ (runState (pollStep (⟨true, QRes.err 1 9⟩ : Env Nat Nat) c9g.execute).1 c9wtr).graph.dag.getSt 1
        = some .running
    ∧ (∀ b ∈ (runState (pollStep (⟨true, QRes.err 1 9⟩ : Env Nat Nat) c9g.execute).1 c9wtr).graph.dag.walk 1,
        isPendB ((runState (pollStep (⟨true, QRes.err 1 9⟩ : Env Nat Nat) c9g.execute).1 c9wtr).graph.dag.getSt b)
          = true)
    ∧ (∀ (j : Nat) (v : Nat),
        (runOuts (pollStep (⟨true, QRes.err 1 9⟩ : Env Nat Nat) c9g.execute).1 c9wtr)[j]?
          ≠ some (.item 1 v)) :=
  c9_error_abandons c9g.execute true 1 9 1 11 c9wtr
    (by decide) (by decide) (by decide) (by decide)

end DagTask
